import Mathlib

/-!
Verification of the ASN.1 value engine instantiated by
`Sources/CNIOBoringSSL/crypto/asn1/tasn_typ.cc`.

That file registers the concrete ASN.1 types (the string-family kinds,
NULL, the three BOOLEAN flavors, ANY, the swallowed SEQUENCE, the
multistring CHOICE types, and SEQUENCE-OF-ANY / SET-OF-ANY) against a
generic descriptor-driven engine.  The per-kind `_new` and `_free`
wrappers and the registration list are embedded from the source file
itself; the generic engine (tag/length codec, primitive codecs,
decode/encode/new/free/duplicate) is not part of the excerpt and is
modelled from the specification, as marked on each such definition.
-/

namespace ASN1Spec

/-- Modelled from the spec: the decode/encode error taxonomy of the
engine (spec section 7); the engine itself is not in the excerpt. -/
inductive Err where
  | truncated
  | invalidTag
  | unexpectedTag
  | invalidLength
  | nonMinimalEncoding
  | invalidCharacter
  | invalidTime
  | invalidEncoding
  | missingField
  | trailingData
  | valueTooLarge
  deriving DecidableEq

/-- The string-family kinds instantiated by `tasn_typ.cc` (lines 22-35
and the swallowed `ASN1_SEQUENCE` of line 45), plus `numericString`,
which occurs only as a multistring alternative. -/
inductive StrKind where
  | octetString
  | integer
  | enumerated
  | bitString
  | utf8
  | printable
  | t61
  | ia5
  | general
  | utcTime
  | generalizedTime
  | visible
  | universalString
  | bmp
  | numericString
  | sequenceCapture
  deriving DecidableEq, Fintype

/-- Universal tag number of each string-family kind. -/
def tagOf : StrKind → Nat
  | .octetString => 4
  | .integer => 2
  | .enumerated => 10
  | .bitString => 3
  | .utf8 => 12
  | .printable => 19
  | .t61 => 20
  | .ia5 => 22
  | .general => 27
  | .utcTime => 23
  | .generalizedTime => 24
  | .visible => 26
  | .universalString => 28
  | .bmp => 30
  | .numericString => 18
  | .sequenceCapture => 16

/-- Whether the wire element of the kind is constructed (only the
swallowed SEQUENCE is). -/
def isConsKind : StrKind → Bool
  | .sequenceCapture => true
  | _ => false

/-- The `V_ASN1_*` type constant stored in a string value's
discriminant; for universal kinds it equals the tag number. -/
def VOf (k : StrKind) : Nat := tagOf k

def V_ASN1_BOOLEAN : Nat := 1
def V_ASN1_INTEGER : Nat := 2
def V_ASN1_BIT_STRING : Nat := 3
def V_ASN1_OCTET_STRING : Nat := 4
def V_ASN1_NULL : Nat := 5
def V_ASN1_ENUMERATED : Nat := 10
def V_ASN1_UTF8STRING : Nat := 12
def V_ASN1_SEQUENCE : Nat := 16
def V_ASN1_NUMERICSTRING : Nat := 18
def V_ASN1_PRINTABLESTRING : Nat := 19
def V_ASN1_T61STRING : Nat := 20
def V_ASN1_IA5STRING : Nat := 22
def V_ASN1_UTCTIME : Nat := 23
def V_ASN1_GENERALIZEDTIME : Nat := 24
def V_ASN1_VISIBLESTRING : Nat := 26
def V_ASN1_GENERALSTRING : Nat := 27
def V_ASN1_UNIVERSALSTRING : Nat := 28
def V_ASN1_BMPSTRING : Nat := 30

/-- The negative-sign bit folded into the type discriminant of a
negative INTEGER/ENUMERATED value (sign-magnitude storage). -/
def V_ASN1_NEG : Nat := 256

/-- Big-endian base-256 value of a byte list. -/
def bytesToNat (bs : List Nat) : Nat := bs.foldl (fun a b => a * 256 + b) 0

/-- Fuelled minimal big-endian base-256 byte representation. -/
def natToBytesAux : Nat → Nat → List Nat
  | 0, _ => []
  | fuel + 1, n => if n = 0 then [] else natToBytesAux fuel (n / 256) ++ [n % 256]

/-- Minimal big-endian base-256 byte representation; zero is the empty
list (the stored magnitude of the integer value zero). -/
def natToBytes (n : Nat) : List Nat := natToBytesAux n n

theorem bytesToNat_append (xs : List Nat) (b : Nat) :
    bytesToNat (xs ++ [b]) = bytesToNat xs * 256 + b := by
  simp [bytesToNat, List.foldl_append]

theorem natToBytesAux_irrel : ∀ fuel fuel' n, n ≤ fuel → n ≤ fuel' →
    natToBytesAux fuel n = natToBytesAux fuel' n := by
  intro fuel
  induction fuel with
  | zero =>
    intro fuel' n h _
    interval_cases n
    cases fuel' <;> simp [natToBytesAux]
  | succ f ih =>
    intro fuel' n h h'
    by_cases hn : n = 0
    · subst hn; cases fuel' <;> simp [natToBytesAux]
    · cases fuel' with
      | zero => omega
      | succ f' =>
        simp only [natToBytesAux, if_neg hn]
        have hd : n / 256 ≤ f := by
          have := Nat.div_lt_self (Nat.pos_of_ne_zero hn) (by norm_num : 1 < 256)
          omega
        have hd' : n / 256 ≤ f' := by
          have := Nat.div_lt_self (Nat.pos_of_ne_zero hn) (by norm_num : 1 < 256)
          omega
        rw [ih f' (n / 256) hd hd']

theorem natToBytesAux_eq : ∀ fuel n, n ≤ fuel →
    natToBytesAux fuel n = if n = 0 then [] else natToBytes (n / 256) ++ [n % 256] := by
  intro fuel n h
  cases fuel with
  | zero =>
    interval_cases n
    simp [natToBytesAux]
  | succ f =>
    by_cases hn : n = 0
    · simp [hn, natToBytesAux]
    · simp only [natToBytesAux, if_neg hn]
      have hd : n / 256 ≤ f := by
        have := Nat.div_lt_self (Nat.pos_of_ne_zero hn) (by norm_num : 1 < 256)
        omega
      rw [natToBytesAux_irrel f (n / 256) (n / 256) hd (le_refl _)]
      rfl

/-- Characteristic equation of `natToBytes`. -/
theorem natToBytes_eq (n : Nat) :
    natToBytes n = if n = 0 then [] else natToBytes (n / 256) ++ [n % 256] :=
  natToBytesAux_eq n n (le_refl n)

theorem bytesToNat_natToBytes (n : Nat) : bytesToNat (natToBytes n) = n := by
  induction n using Nat.strong_induction_on with
  | _ n ih =>
    rw [natToBytes_eq]
    by_cases hn : n = 0
    · simp [hn, bytesToNat]
    · rw [if_neg hn, bytesToNat_append,
        ih (n / 256) (Nat.div_lt_self (Nat.pos_of_ne_zero hn) (by norm_num))]
      omega

theorem natToBytes_ne_nil {n : Nat} (hn : n ≠ 0) : natToBytes n ≠ [] := by
  rw [natToBytes_eq, if_neg hn]
  simp

theorem natToBytes_head_ne_zero : ∀ n h rest, n ≠ 0 →
    natToBytes n = h :: rest → h ≠ 0 := by
  intro n
  induction n using Nat.strong_induction_on with
  | _ n ih =>
    intro h rest hn heq
    rw [natToBytes_eq, if_neg hn] at heq
    by_cases hq : n / 256 = 0
    · rw [hq] at heq
      simp [natToBytes, natToBytesAux] at heq
      have : n < 256 := by omega
      have : n % 256 = n := Nat.mod_eq_of_lt this
      omega
    · rcases hcons : natToBytes (n / 256) with _ | ⟨h', rest'⟩
      · exact absurd hcons (natToBytes_ne_nil hq)
      · rw [hcons] at heq
        simp at heq
        have := ih (n / 256) (Nat.div_lt_self (Nat.pos_of_ne_zero hn) (by norm_num))
          h' rest' hq hcons
        omega

theorem natToBytes_lt (n : Nat) : ∀ b ∈ natToBytes n, b < 256 := by
  induction n using Nat.strong_induction_on with
  | _ n ih =>
    intro b hb
    rw [natToBytes_eq] at hb
    by_cases hn : n = 0
    · simp [hn] at hb
    · rw [if_neg hn] at hb
      rcases List.mem_append.1 hb with h | h
      · exact ih (n / 256) (Nat.div_lt_self (Nat.pos_of_ne_zero hn) (by norm_num)) b h
      · simp at h
        omega

theorem natToBytes_bytesToNat : ∀ bs : List Nat,
    (∀ b ∈ bs, b < 256) → (∀ h rest, bs = h :: rest → h ≠ 0) →
    natToBytes (bytesToNat bs) = bs := by
  intro bs
  induction bs using List.reverseRecOn with
  | nil => intro _ _; simp [bytesToNat, natToBytes, natToBytesAux]
  | append_singleton ys b ih =>
    intro hlt hhd
    rcases ys with _ | ⟨y, ys'⟩
    · simp only [List.nil_append] at hhd ⊢
      have hb : b ≠ 0 := hhd b [] rfl
      have hblt : b < 256 := hlt b (by simp)
      rw [show bytesToNat [b] = b by simp [bytesToNat], natToBytes_eq, if_neg hb,
        Nat.div_eq_of_lt hblt, Nat.mod_eq_of_lt hblt]
      simp [natToBytes, natToBytesAux]
    · rw [bytesToNat_append]
      have hy : bytesToNat (y :: ys') ≠ 0 := by
        intro h0
        have hyne : y ≠ 0 := hhd y (ys' ++ [b]) (by simp)
        have : 0 < bytesToNat (y :: ys') := by
          have : y * 256 ^ ys'.length ≤ bytesToNat (y :: ys') := by
            clear h0 ih hhd hlt
            induction ys' using List.reverseRecOn with
            | nil => simp [bytesToNat]
            | append_singleton zs z ihz =>
              have : (y :: zs ++ [z]) = (y :: zs) ++ [z] := by simp
              rw [show y :: (zs ++ [z]) = (y :: zs) ++ [z] by simp, bytesToNat_append]
              calc y * 256 ^ (zs ++ [z]).length = y * 256 ^ zs.length * 256 + 0 := by
                    simp [pow_succ]; ring
                _ ≤ bytesToNat (y :: zs) * 256 + z := by
                    have := ihz
                    omega
          have hpos : 0 < y * 256 ^ ys'.length :=
            Nat.mul_pos (Nat.pos_of_ne_zero hyne) (Nat.pos_pow_of_pos _ (by norm_num))
          omega
        omega
      have hblt : b < 256 := hlt b (by simp)
      have hbig : bytesToNat (y :: ys') * 256 + b ≠ 0 := by
        have : 0 < bytesToNat (y :: ys') := Nat.pos_of_ne_zero hy
        omega
      rw [natToBytes_eq, if_neg hbig]
      have hdiv : (bytesToNat (y :: ys') * 256 + b) / 256 = bytesToNat (y :: ys') := by
        omega
      have hmod : (bytesToNat (y :: ys') * 256 + b) % 256 = b := by
        omega
      rw [hdiv, hmod, ih
        (fun x hx => hlt x (by
          simp only [List.cons_append, List.mem_cons, List.mem_append] at hx ⊢
          tauto))
        (fun h rest hh => hhd h (rest ++ [b]) (by simp [hh]))]

/-- Lexicographic comparison of encoded octet strings (a proper prefix
sorts first); this is the canonical DER SET-OF element order. -/
def lexLe : List Nat → List Nat → Bool
  | [], _ => true
  | _ :: _, [] => false
  | x :: xs, y :: ys => if x < y then true else if x = y then lexLe xs ys else false

/-- The SET-OF element order as a relation. -/
def lexR (a b : List Nat) : Prop := lexLe a b = true

instance : DecidableRel lexR := fun a b =>
  inferInstanceAs (Decidable (lexLe a b = true))

theorem lexLe_total : ∀ a b : List Nat, lexLe a b = true ∨ lexLe b a = true := by
  intro a
  induction a with
  | nil => intro b; left; rfl
  | cons x xs ih =>
    intro b
    cases b with
    | nil => right; rfl
    | cons y ys =>
      by_cases hxy : x < y
      · left; simp [lexLe, hxy]
      · by_cases heq : x = y
        · subst heq
          rcases ih ys with h | h
          · left; simp [lexLe, h]
          · right; simp [lexLe, h]
        · right
          have : y < x := by omega
          simp [lexLe, this]

theorem lexLe_antisymm : ∀ a b : List Nat,
    lexLe a b = true → lexLe b a = true → a = b := by
  intro a
  induction a with
  | nil =>
    intro b _ hba
    cases b with
    | nil => rfl
    | cons y ys => simp [lexLe] at hba
  | cons x xs ih =>
    intro b hab hba
    cases b with
    | nil => simp [lexLe] at hab
    | cons y ys =>
      by_cases hxy : x < y
      · by_cases hyx : y < x
        · omega
        · have hne : ¬ y = x := by omega
          simp [lexLe, hyx, hne] at hba
      · by_cases heq : x = y
        · subst heq
          simp only [lexLe, if_neg hxy, if_pos rfl] at hab hba
          rw [ih ys hab hba]
        · simp [lexLe, hxy, heq] at hab

theorem lexLe_trans : ∀ a b c : List Nat,
    lexLe a b = true → lexLe b c = true → lexLe a c = true := by
  intro a
  induction a with
  | nil => intro b c _ _; rfl
  | cons x xs ih =>
    intro b c hab hbc
    cases b with
    | nil => simp [lexLe] at hab
    | cons y ys =>
      cases c with
      | nil => simp [lexLe] at hbc
      | cons z zs =>
        simp only [lexLe] at hab hbc ⊢
        by_cases hxy : x < y <;> by_cases hyz : y < z
        · have : x < z := by omega
          simp [this]
        · simp only [if_pos hxy] at hab
          by_cases hyeq : y = z
          · have : x < z := by omega
            simp [this]
          · simp [if_neg hyz, hyeq] at hbc
        · simp only [if_neg hxy] at hab
          by_cases hxeq : x = y
          · have : x < z := by omega
            simp [this]
          · simp [hxeq] at hab
        · by_cases hxeq : x = y
          · by_cases hyeq : y = z
            · have hxz : ¬ x < z := by omega
              have : x = z := by omega
              simp only [if_neg hxz, if_pos this]
              simp only [if_neg hxy, if_pos hxeq] at hab
              simp only [if_neg hyz, if_pos hyeq] at hbc
              exact ih ys zs hab hbc
            · simp [if_neg hyz, hyeq] at hbc
          · simp [if_neg hxy, hxeq] at hab

instance : IsTotal (List Nat) lexR := ⟨lexLe_total⟩

instance : IsTrans (List Nat) lexR := ⟨lexLe_trans⟩

instance : IsAntisymm (List Nat) lexR := ⟨lexLe_antisymm⟩

/-- An ASN.1 identifier: class, primitive/constructed bit, tag number. -/
structure AsnTag where
  cls : Nat
  constructed : Bool
  num : Nat
  deriving DecidableEq

/-- Fuelled big-endian base-128 digit list of a tag number. -/
def b128Aux : Nat → Nat → List Nat
  | 0, n => [n % 128]
  | fuel + 1, n => if n < 128 then [n] else b128Aux fuel (n / 128) ++ [n % 128]

/-- Big-endian base-128 digits (each below 128) of a tag number. -/
def b128digits (n : Nat) : List Nat := b128Aux n n

theorem b128Aux_irrel : ∀ fuel fuel' n, n ≤ fuel + 127 → n ≤ fuel' + 127 →
    b128Aux fuel n = b128Aux fuel' n := by
  intro fuel
  induction fuel with
  | zero =>
    intro fuel' n h _
    have hn : n < 128 := by omega
    cases fuel' with
    | zero => rfl
    | succ f' =>
      simp [b128Aux, hn, Nat.mod_eq_of_lt hn]
  | succ f ih =>
    intro fuel' n h h'
    by_cases hn : n < 128
    · cases fuel' with
      | zero => simp [b128Aux, hn, Nat.mod_eq_of_lt hn]
      | succ f' => simp [b128Aux, hn]
    · cases fuel' with
      | zero => omega
      | succ f' =>
        simp only [b128Aux, if_neg hn]
        have hd : n / 128 ≤ f + 127 := by
          have : n / 128 < n := Nat.div_lt_self (by omega) (by norm_num)
          omega
        have hd' : n / 128 ≤ f' + 127 := by
          have : n / 128 < n := Nat.div_lt_self (by omega) (by norm_num)
          omega
        rw [ih f' (n / 128) hd hd']

theorem b128digits_eq (n : Nat) :
    b128digits n = if n < 128 then [n] else b128digits (n / 128) ++ [n % 128] := by
  by_cases hn : n < 128
  · rw [if_pos hn]
    rw [show b128digits n = b128Aux 0 n from b128Aux_irrel n 0 n (by omega) (by omega)]
    simp [b128Aux, Nat.mod_eq_of_lt hn]
  · rcases Nat.exists_eq_add_of_le (show 1 ≤ n by omega) with ⟨m, hm⟩
    simp only [b128digits, if_neg hn]
    have h1 : b128Aux n n = b128Aux (m + 1) n := by
      apply b128Aux_irrel <;> omega
    rw [h1]
    simp only [b128Aux, if_neg hn]
    have hd : n / 128 ≤ m + 127 := by
      have : n / 128 < n := Nat.div_lt_self (by omega) (by norm_num)
      omega
    rw [b128Aux_irrel m (n / 128) (n / 128) hd (by omega)]

theorem b128digits_lt (n : Nat) : ∀ d ∈ b128digits n, d < 128 := by
  induction n using Nat.strong_induction_on with
  | _ n ih =>
    intro d hd
    rw [b128digits_eq] at hd
    by_cases hn : n < 128
    · simp [hn] at hd
      omega
    · rw [if_neg hn] at hd
      rcases List.mem_append.1 hd with h | h
      · exact ih (n / 128) (Nat.div_lt_self (by omega) (by norm_num)) d h
      · simp at h
        omega

theorem b128digits_ne_nil (n : Nat) : b128digits n ≠ [] := by
  rw [b128digits_eq]
  by_cases hn : n < 128 <;> simp [hn]

/-- Marks the base-128 continuation bit on all digits but the last. -/
def markCont : List Nat → List Nat
  | [] => []
  | [d] => [d]
  | d :: rest => (d + 128) :: markCont rest

/-- Modelled from the spec: identifier-octet encoder of the tag/length
codec, emitting high-tag-number base-128 form when the number is 31 or
larger (spec section 4.1); the codec itself is not in the excerpt. -/
def encodeTag (t : AsnTag) : List Nat :=
  let base := t.cls * 64 + (if t.constructed then 32 else 0)
  if t.num < 31 then [base + t.num]
  else (base + 31) :: markCont (b128digits t.num)

/-- Modelled from the spec: base-128 continuation reader of the
tag/length codec; it fails with the tag error when the continuation
never terminates in the buffer (spec section 4.1). -/
def decodeB128 : List Nat → Nat → Except Err (Nat × List Nat)
  | [], _ => .error .invalidTag
  | b :: rest, acc =>
    if b < 128 then .ok (acc * 128 + b, rest)
    else decodeB128 rest (acc * 128 + (b - 128))

/-- Modelled from the spec: identifier-octet decoder of the tag/length
codec (spec section 4.1); fails with the truncation error on an empty
buffer. -/
def decodeTag (bs : List Nat) : Except Err (AsnTag × List Nat) :=
  match bs with
  | [] => .error .truncated
  | b :: rest =>
    let cls := b / 64
    let cons := decide (b / 32 % 2 = 1)
    let low := b % 32
    if low < 31 then .ok (⟨cls, cons, low⟩, rest)
    else
      match decodeB128 rest 0 with
      | .ok (n, r) => .ok (⟨cls, cons, n⟩, r)
      | .error e => .error e

theorem decodeB128_marked : ∀ ds rest acc, ds ≠ [] → (∀ d ∈ ds, d < 128) →
    decodeB128 (markCont ds ++ rest) acc =
      .ok (ds.foldl (fun a d => a * 128 + d) acc, rest) := by
  intro ds
  induction ds with
  | nil => intro rest acc h _; exact absurd rfl h
  | cons d tail ih =>
    intro rest acc _ hlt
    cases tail with
    | nil =>
      have hd : d < 128 := hlt d (by simp)
      simp [markCont, decodeB128, hd, List.foldl]
    | cons d2 t2 =>
      have hd : d < 128 := hlt d (by simp)
      have hne : ¬ (d + 128 < 128) := by omega
      simp only [markCont, List.cons_append, decodeB128, if_neg hne]
      have : d + 128 - 128 = d := by omega
      rw [this]
      exact ih rest (acc * 128 + d) (by simp) (fun x hx => hlt x (by simp [hx]))

theorem b128_foldl (n : Nat) : ∀ acc,
    (b128digits n).foldl (fun a d => a * 128 + d) acc =
      acc * 128 ^ (b128digits n).length + n := by
  induction n using Nat.strong_induction_on with
  | _ n ih =>
    intro acc
    rw [b128digits_eq]
    by_cases hn : n < 128
    · simp [hn, List.foldl]
    · rw [if_neg hn, List.foldl_append]
      have hrec := ih (n / 128) (Nat.div_lt_self (by omega) (by norm_num)) acc
      simp only [List.foldl] at hrec ⊢
      rw [hrec]
      have : n / 128 * 128 + n % 128 = n := by omega
      rw [List.length_append]
      simp [pow_succ]
      ring_nf
      omega

set_option maxHeartbeats 1000000

theorem decodeTag_encodeTag (t : AsnTag) (rest : List Nat) (hcls : t.cls ≤ 3) :
    decodeTag (encodeTag t ++ rest) = .ok (t, rest) := by
  rcases t with ⟨cls, cons, num⟩
  simp only [encodeTag] at *
  by_cases hnum : num < 31
  · simp only [if_pos hnum, List.cons_append]
    have hb : cls * 64 + (if cons then 32 else 0) + num < 256 := by
      cases cons <;> simp <;> omega
    simp only [decodeTag]
    have hdiv : (cls * 64 + (if cons then 32 else 0) + num) / 64 = cls := by
      cases cons <;> simp <;> omega
    have hcons : decide ((cls * 64 + (if cons then 32 else 0) + num) / 32 % 2 = 1) = cons := by
      cases cons <;> simp <;> omega
    have hmod : (cls * 64 + (if cons then 32 else 0) + num) % 32 = num := by
      cases cons <;> simp <;> omega
    rw [hdiv, hcons, hmod, if_pos hnum]
    simp
  · simp only [if_neg hnum, List.cons_append]
    simp only [decodeTag]
    have hmod : (cls * 64 + (if cons then 32 else 0) + 31) % 32 = 31 := by
      cases cons <;> simp <;> omega
    rw [hmod]
    have h31 : ¬ (31 < 31) := by omega
    rw [if_neg h31]
    rw [decodeB128_marked (b128digits num) rest 0 (b128digits_ne_nil num)
      (b128digits_lt num)]
    rw [b128_foldl num 0]
    have hdiv : (cls * 64 + (if cons then 32 else 0) + 31) / 64 = cls := by
      cases cons <;> simp <;> omega
    have hcons : decide ((cls * 64 + (if cons then 32 else 0) + 31) / 32 % 2 = 1) = cons := by
      cases cons <;> simp <;> omega
    rw [hdiv, hcons]
    simp

/-- Modelled from the spec: length-octet encoder of the tag/length
codec — short form below 128, otherwise minimal long form (spec
section 4.1); the codec itself is not in the excerpt. -/
def encodeLen (n : Nat) : List Nat :=
  if n < 128 then [n] else (128 + (natToBytes n).length) :: natToBytes n

/-- Modelled from the spec: length-octet decoder of the tag/length
codec; fails with the length error on the reserved indefinite-form
octet, on a long form with a redundant leading zero octet, and on a
stated length exceeding the remaining buffer (spec section 4.1). -/
def decodeLen (bs : List Nat) : Except Err (Nat × List Nat) :=
  match bs with
  | [] => .error .truncated
  | b :: rest =>
    if b < 128 then
      if b ≤ rest.length then .ok (b, rest) else .error .invalidLength
    else if b = 128 then .error .invalidLength
    else
      match rest with
      | [] => .error .truncated
      | c :: _ =>
        if c = 0 then .error .invalidLength
        else
          let cnt := b - 128
          if cnt ≤ rest.length then
            let n := bytesToNat (rest.take cnt)
            if n ≤ (rest.drop cnt).length then .ok (n, rest.drop cnt)
            else .error .invalidLength
          else .error .truncated

/-- The encoded TLV of a tag and content octets. -/
def mkTLV (t : AsnTag) (content : List Nat) : List Nat :=
  encodeTag t ++ encodeLen content.length ++ content

/-- Modelled from the spec: the combined tag-and-length header decoder
(spec section 4.1), returning the tag, the content region, and the
remaining buffer. -/
def decodeHdr (bs : List Nat) : Except Err (AsnTag × List Nat × List Nat) :=
  match decodeTag bs with
  | .error e => .error e
  | .ok (t, r1) =>
    match decodeLen r1 with
    | .error e => .error e
    | .ok (n, r2) => .ok (t, r2.take n, r2.drop n)

theorem decodeLen_encodeLen (n : Nat) (content rest : List Nat)
    (hlen : content.length = n) :
    decodeLen (encodeLen n ++ (content ++ rest)) = .ok (n, content ++ rest) := by
  by_cases hn : n < 128
  · simp only [encodeLen, if_pos hn, List.cons_append, decodeLen, if_pos hn]
    rw [if_pos (by simp [← hlen])]
    simp
  · simp only [encodeLen, if_neg hn, List.cons_append, decodeLen]
    have hnz : n ≠ 0 := by omega
    have hne : natToBytes n ≠ [] := natToBytes_ne_nil hnz
    have h128 : ¬ (128 + (natToBytes n).length < 128) := by omega
    have hlen1 : 1 ≤ (natToBytes n).length := by
      cases h : natToBytes n with
      | nil => exact absurd h hne
      | cons a b => simp
    have hne128 : ¬ (128 + (natToBytes n).length = 128) := by omega
    rw [if_neg h128, if_neg hne128]
    rcases hcons : natToBytes n with _ | ⟨h0, tl⟩
    · exact absurd hcons hne
    · have hh0 : h0 ≠ 0 := natToBytes_head_ne_zero n h0 tl hnz hcons
      simp only [List.cons_append, if_neg hh0]
      have hcnt : 128 + (natToBytes n).length - 128 = (natToBytes n).length := by omega
      rw [← List.cons_append, ← hcons, hcnt]
      have htk : ((natToBytes n ++ (content ++ rest)).take (natToBytes n).length)
          = natToBytes n := by
        rw [List.take_append_of_le_length (le_refl _), List.take_length]
      have hdp : ((natToBytes n ++ (content ++ rest)).drop (natToBytes n).length)
          = content ++ rest := by
        rw [List.drop_append_of_le_length (le_refl _), List.drop_length]
        simp
      have havail : (natToBytes n).length ≤ (natToBytes n ++ (content ++ rest)).length := by
        simp
      rw [if_pos havail, htk, hdp, bytesToNat_natToBytes]
      rw [if_pos (by simp [← hlen])]

theorem decodeHdr_mkTLV (t : AsnTag) (content rest : List Nat) (hcls : t.cls ≤ 3) :
    decodeHdr (mkTLV t content ++ rest) = .ok (t, content, rest) := by
  simp only [mkTLV, decodeHdr, List.append_assoc,
    decodeTag_encodeTag t _ hcls,
    decodeLen_encodeLen content.length content rest rfl]
  rw [List.take_append_of_le_length (le_refl _), List.take_length,
    List.drop_append_of_le_length (le_refl _), List.drop_length]
  simp

/-- A content byte read as a signed (two's complement) leading byte. -/
def sbyte (b : Nat) : Int := if 128 ≤ b then (b : Int) - 256 else (b : Int)

/-- Modelled from the spec: the two's-complement big-endian value of
INTEGER/ENUMERATED content octets (spec section 4.2). -/
def twosDec : List Nat → Int
  | [] => 0
  | b :: rest => rest.foldl (fun a c => a * 256 + (c : Int)) (sbyte b)

/-- Modelled from the spec: the minimality test on INTEGER/ENUMERATED
content — no redundant leading 0x00 or 0xFF byte, at least one byte
(spec section 4.2). -/
def minimalTwos (content : List Nat) : Bool :=
  match content with
  | [] => false
  | [_] => true
  | b0 :: b1 :: _ =>
    !(decide (b0 = 0 ∧ b1 < 128) || decide (b0 = 255 ∧ 128 ≤ b1))

/-- Fuelled minimal two's-complement big-endian encoder. -/
def twosEncAux : Nat → Int → List Nat
  | 0, _ => []
  | fuel + 1, v =>
    if -128 ≤ v ∧ v < 128 then [(v % 256).toNat]
    else twosEncAux fuel (v / 256) ++ [(v % 256).toNat]

/-- Modelled from the spec: the minimal two's-complement big-endian
encoding of an INTEGER/ENUMERATED value (spec section 4.2). -/
def twosEnc (v : Int) : List Nat := twosEncAux (v.natAbs + 1) v

theorem twosEncAux_irrel : ∀ fuel fuel' v, v.natAbs < fuel → v.natAbs < fuel' →
    twosEncAux fuel v = twosEncAux fuel' v := by
  intro fuel
  induction fuel with
  | zero => intro fuel' v h _; omega
  | succ f ih =>
    intro fuel' v h h'
    cases fuel' with
    | zero => omega
    | succ f' =>
      by_cases hb : -128 ≤ v ∧ v < 128
      · simp [twosEncAux, hb]
      · simp only [twosEncAux, if_neg hb]
        have hlt : (v / 256).natAbs < v.natAbs := by omega
        rw [ih f' (v / 256) (by omega) (by omega)]

/-- Characteristic equation of `twosEnc`. -/
theorem twosEnc_eq (v : Int) :
    twosEnc v = if -128 ≤ v ∧ v < 128 then [(v % 256).toNat]
      else twosEnc (v / 256) ++ [(v % 256).toNat] := by
  by_cases hb : -128 ≤ v ∧ v < 128
  · simp [twosEnc, twosEncAux, hb]
  · simp only [twosEnc, if_neg hb]
    have h0 : v.natAbs < v.natAbs + 1 := by omega
    rw [show twosEncAux (v.natAbs + 1) v = twosEncAux (v.natAbs + 1 + 1) v from
      twosEncAux_irrel _ _ v h0 (by omega)]
    simp only [twosEncAux, if_neg hb]
    by_cases hbb : -128 ≤ v / 256 ∧ v / 256 < 128
    · simp [hbb]
    · simp only [if_neg hbb]
      rw [twosEncAux_irrel v.natAbs ((v / 256).natAbs) (v / 256 / 256)
        (by omega) (by omega)]

theorem twosEnc_ne_nil (v : Int) : twosEnc v ≠ [] := by
  rw [twosEnc_eq]
  by_cases hb : -128 ≤ v ∧ v < 128 <;> simp [hb]

theorem twosDec_append (xs : List Nat) (b : Nat) (hne : xs ≠ []) :
    twosDec (xs ++ [b]) = twosDec xs * 256 + b := by
  cases xs with
  | nil => exact absurd rfl hne
  | cons x rest =>
    simp [twosDec, List.foldl_append]

theorem twosDec_twosEnc_aux : ∀ n : Nat, ∀ v : Int, v.natAbs = n →
    twosDec (twosEnc v) = v := by
  intro n
  induction n using Nat.strong_induction_on with
  | _ n ih =>
    intro v hn
    rw [twosEnc_eq]
    by_cases hb : -128 ≤ v ∧ v < 128
    · rw [if_pos hb]
      have hm : v % 256 = v ∨ v % 256 = v + 256 := by omega
      have hm0 : 0 ≤ v % 256 := by omega
      simp only [twosDec, List.foldl, sbyte]
      rcases hm with hm | hm
      · have : ((v % 256).toNat : Int) = v := by omega
        rw [this]
        have : ¬ 128 ≤ (v % 256).toNat := by omega
        simp [this]
      · have : ((v % 256).toNat : Int) = v + 256 := by omega
        have h128 : 128 ≤ (v % 256).toNat := by omega
        simp [h128]
        omega
    · rw [if_neg hb]
      rw [twosDec_append _ _ (twosEnc_ne_nil _)]
      rw [ih (v / 256).natAbs (by omega) (v / 256) rfl]
      omega

theorem twosDec_twosEnc (v : Int) : twosDec (twosEnc v) = v :=
  twosDec_twosEnc_aux v.natAbs v rfl

theorem minimalTwos_pair_eq (b0 b1 : Nat) (l l' : List Nat) :
    minimalTwos (b0 :: b1 :: l) = minimalTwos (b0 :: b1 :: l') := rfl

theorem minimalTwos_twosEnc_aux : ∀ n : Nat, ∀ v : Int, v.natAbs = n →
    minimalTwos (twosEnc v) = true := by
  intro n
  induction n using Nat.strong_induction_on with
  | _ n ih =>
    intro v hn
    rw [twosEnc_eq]
    by_cases hb : -128 ≤ v ∧ v < 128
    · simp [hb, minimalTwos]
    · rw [if_neg hb]
      rcases hcons : twosEnc (v / 256) with _ | ⟨c0, tail⟩
      · exact absurd hcons (twosEnc_ne_nil _)
      · cases tail with
        | nil =>
          have hc0 : twosEnc (v / 256) = [c0] := hcons
          have hbase : -128 ≤ v / 256 ∧ v / 256 < 128 ∧ c0 = ((v / 256) % 256).toNat := by
            rw [twosEnc_eq] at hc0
            by_cases hbb : -128 ≤ v / 256 ∧ v / 256 < 128
            · rw [if_pos hbb] at hc0
              simp at hc0
              exact ⟨hbb.1, hbb.2, hc0.symm⟩
            · rw [if_neg hbb] at hc0
              rcases hc2 : twosEnc (v / 256 / 256) with _ | ⟨d, t2⟩
              · exact absurd hc2 (twosEnc_ne_nil _)
              · rw [hc2] at hc0
                simp at hc0
          simp only [List.cons_append, List.nil_append, minimalTwos,
            Bool.or_eq_true, decide_eq_true_eq, Bool.not_eq_true',
            Bool.or_eq_false_iff, decide_eq_false_iff_not]
          obtain ⟨hw1, hw2, hc0eq⟩ := hbase
          subst hc0eq
          omega
        | cons c1 t2 =>
          simp only [List.cons_append]
          rw [minimalTwos_pair_eq c0 c1 (t2 ++ [(v % 256).toNat]) t2, ← hcons]
          exact ih (v / 256).natAbs (by omega) (v / 256) rfl

theorem minimalTwos_twosEnc (v : Int) : minimalTwos (twosEnc v) = true :=
  minimalTwos_twosEnc_aux v.natAbs v rfl

theorem twosEnc_sbyte (b : Nat) (hb : b < 256) : twosEnc (sbyte b) = [b] := by
  have hrange : -128 ≤ sbyte b ∧ sbyte b < 128 := by
    simp only [sbyte]
    by_cases h : 128 ≤ b <;> simp [h] <;> omega
  rw [twosEnc_eq, if_pos hrange]
  have : (sbyte b % 256).toNat = b := by
    simp only [sbyte]
    by_cases h : 128 ≤ b <;> simp [h] <;> omega
  rw [this]

theorem twosEnc_twosDec : ∀ content : List Nat, minimalTwos content = true →
    (∀ b ∈ content, b < 256) → twosEnc (twosDec content) = content := by
  intro content
  induction content using List.reverseRecOn with
  | nil => intro hmin _; simp [minimalTwos] at hmin
  | append_singleton ys b ih =>
    intro hmin hlt
    rcases ys with _ | ⟨y, ys'⟩
    · simp only [List.nil_append]
      rw [show twosDec [b] = sbyte b from rfl]
      exact twosEnc_sbyte b (hlt b (by simp))
    · have hne : (y :: ys') ≠ ([] : List Nat) := by simp
      have hysmin : minimalTwos (y :: ys') = true := by
        rcases ys' with _ | ⟨y1, t⟩
        · rfl
        · rw [minimalTwos_pair_eq y y1 t (t ++ [b])]
          simpa using hmin
      have hysb : ∀ x ∈ y :: ys', x < 256 := by
        intro x hx
        apply hlt
        simp only [List.cons_append, List.mem_cons, List.mem_append] at hx ⊢
        tauto
      have hys : twosEnc (twosDec (y :: ys')) = y :: ys' := ih hysmin hysb
      have hvdec : twosDec ((y :: ys') ++ [b]) = twosDec (y :: ys') * 256 + b :=
        twosDec_append _ b hne
      have hblt : b < 256 := hlt b (by simp)
      rw [hvdec]
      by_cases hbase : -128 ≤ twosDec (y :: ys') * 256 + (b : Int) ∧
          twosDec (y :: ys') * 256 + (b : Int) < 128
      · exfalso
        have hw : twosDec (y :: ys') = 0 ∨ twosDec (y :: ys') = -1 := by omega
        rcases hw with hw | hw
        · have hys0 : (y :: ys') = [0] := by
            rw [← hys, hw]
            decide
          have hy0 : y = 0 ∧ ys' = [] := by
            simpa using hys0
          obtain ⟨hy, hys'⟩ := hy0
          subst hy; subst hys'
          simp only [List.cons_append, List.nil_append, minimalTwos,
            Bool.or_eq_true, decide_eq_true_eq, Bool.not_eq_true',
            Bool.or_eq_false_iff, decide_eq_false_iff_not, true_and] at hmin
          rw [hw] at hbase
          omega
        · have hys255 : (y :: ys') = [255] := by
            rw [← hys, hw]
            decide
          have hy255 : y = 255 ∧ ys' = [] := by
            simpa using hys255
          obtain ⟨hy, hys'⟩ := hy255
          subst hy; subst hys'
          simp only [List.cons_append, List.nil_append, minimalTwos,
            Bool.or_eq_true, decide_eq_true_eq, Bool.not_eq_true',
            Bool.or_eq_false_iff, decide_eq_false_iff_not, true_and] at hmin
          rw [hw] at hbase
          omega
      · rw [twosEnc_eq, if_neg hbase]
        have h1 : (twosDec (y :: ys') * 256 + (b : Int)) / 256 = twosDec (y :: ys') := by
          omega
        have h2 : ((twosDec (y :: ys') * 256 + (b : Int)) % 256).toNat = b := by
          omega
        rw [h1, h2, hys]

/-- Printable-string repertoire: letters, digits, space and
a small punctuation set (spec section 4.2). -/
def printableOK (c : Nat) : Bool :=
  decide (65 ≤ c ∧ c ≤ 90) || decide (97 ≤ c ∧ c ≤ 122) ||
  decide (48 ≤ c ∧ c ≤ 57) || decide (c = 32) || decide (c = 39) ||
  decide (40 ≤ c ∧ c ≤ 41) || decide (43 ≤ c ∧ c ≤ 47) ||
  decide (c = 58) || decide (c = 61) || decide (c = 63)

/-- Numeric-string repertoire: digits and space. -/
def numericOK (c : Nat) : Bool := decide (48 ≤ c ∧ c ≤ 57) || decide (c = 32)

/-- Fixed-width digit groups terminated by Z (the explicit-offset form
the spec also names is not modelled, which only narrows the accepted
set of this repertoire check). -/
def timeOK (len : Nat) (content : List Nat) : Bool :=
  decide (content.length = len) &&
  ((content.take (len - 1)).all fun c => decide (48 ≤ c ∧ c ≤ 57)) &&
  decide (content.getLast? = some 90)

/-- Modelled from the spec: the per-kind content validity check of the
primitive value codecs (spec section 4.2) — character repertoire for
character-string kinds, unused-bit rules for BIT STRING, minimal
two's complement for INTEGER/ENUMERATED, textual format for the time
kinds. -/
def validContent (k : StrKind) (content : List Nat) : Bool :=
  match k with
  | .octetString => true
  | .integer => minimalTwos content
  | .enumerated => minimalTwos content
  | .bitString =>
    match content with
    | [] => false
    | [c] => decide (c = 0)
    | c :: d :: rest =>
      decide (c ≤ 7) && decide (((d :: rest).getLast (by simp)) % 2 ^ c = 0)
  | .utf8 => true
  | .printable => content.all printableOK
  | .t61 => true
  | .ia5 => content.all fun c => decide (c < 128)
  | .general => true
  | .utcTime => timeOK 13 content
  | .generalizedTime => timeOK 15 content
  | .visible => content.all fun c => decide (32 ≤ c ∧ c ≤ 126)
  | .universalString => decide (content.length % 4 = 0)
  | .bmp => decide (content.length % 2 = 0)
  | .numericString => content.all numericOK
  | .sequenceCapture => true

/-- The decode error reported when a kind's content check fails
(spec section 4.2). -/
def errOf (k : StrKind) : Err :=
  match k with
  | .utcTime => .invalidTime
  | .generalizedTime => .invalidTime
  | .bitString => .invalidEncoding
  | _ => .invalidCharacter

/-- An in-memory Value: a string-family value carries the
`V_ASN1_*` discriminant and its data octets (sign-magnitude data for
INTEGER/ENUMERATED, the raw captured TLV for the swallowed SEQUENCE);
`unset` is the state of a freshly made CHOICE or ANY (spec section 3). -/
inductive Value where
  | str (type_ : Nat) (data : List Nat)
  | nullV
  | boolV (b : Bool)
  | anyV (tag : AsnTag) (content : List Nat)
  | seqV (elems : List Value)
  | unset

/-- A type descriptor, as in spec section 3: primitive-of-kind, NULL,
BOOLEAN with an optional compiled-in default, multistring CHOICE over
an ordered alternative list, opaque ANY, and SEQUENCE-OF / SET-OF. -/
inductive Desc where
  | prim (k : StrKind)
  | nullD
  | boolD (dflt : Option Bool)
  | choice (alts : List StrKind)
  | anyD
  | seqOf (isSet : Bool) (elem : Desc)

/-- Modelled from the spec: content-to-value conversion for
INTEGER/ENUMERATED — reject an empty or non-minimal two's-complement
content, store the value in sign-magnitude form (spec section 4.2). -/
def c2i (base : Nat) (content : List Nat) : Except Err Value :=
  if content = [] then .error .invalidEncoding
  else if minimalTwos content = false then .error .nonMinimalEncoding
  else
    let v := twosDec content
    if v < 0 then .ok (.str (base + V_ASN1_NEG) (natToBytes v.natAbs))
    else .ok (.str base (natToBytes v.toNat))

/-- Modelled from the spec: value-to-content conversion for
INTEGER/ENUMERATED — minimal two's complement of the sign-magnitude
stored value (spec section 4.2). -/
def i2c (ty : Nat) (data : List Nat) : List Nat :=
  twosEnc (if V_ASN1_NEG ≤ ty then -(bytesToNat data : Int) else (bytesToNat data : Int))

/-- Modelled from the spec: dispatch of a decoded content region to the
kind's primitive codec; the swallowed SEQUENCE captures the whole TLV
(re-framed canonically) instead of interpreting its content. -/
def contentToValue (k : StrKind) (tlv content : List Nat) : Except Err Value :=
  match k with
  | .integer => c2i V_ASN1_INTEGER content
  | .enumerated => c2i V_ASN1_ENUMERATED content
  | .sequenceCapture => .ok (.str V_ASN1_SEQUENCE tlv)
  | k => if validContent k content then .ok (.str (VOf k) content) else .error (errOf k)

/-- The identifier of a primitive universal BOOLEAN. -/
def boolTag : AsnTag := ⟨0, false, 1⟩

/-- The outer identifier of a SEQUENCE-OF (16) or SET-OF (17). -/
def seqTag (isSet : Bool) : AsnTag := ⟨0, true, if isSet then 17 else 16⟩

/-- Modelled from the spec: the BOOLEAN primitive codec — content must
be exactly one byte, zero is false and any nonzero byte is true (spec
section 4.2). -/
def decodeBoolTLV (bs : List Nat) : Except Err (Value × List Nat) :=
  match decodeHdr bs with
  | .error e => .error e
  | .ok (t, content, rest) =>
    if t = boolTag then
      match content with
      | [b] => .ok (.boolV (decide (b ≠ 0)), rest)
      | _ => .error .invalidEncoding
    else .error .invalidEncoding

/-- Whether a wire identifier selects the given multistring
alternative kind. -/
def tagMatch (t : AsnTag) (k : StrKind) : Bool :=
  decide (t = ⟨0, isConsKind k, tagOf k⟩)

/-- Modelled from the spec: the SEQUENCE-OF/SET-OF element loop —
repeatedly decode elements until the content region is exhausted
exactly; a step that consumes nothing or overruns reports truncation
(spec section 4.3).  The fuel is the region length, enough because
every element consumes at least one octet. -/
def decodeLoopF (f : List Nat → Except Err (Value × List Nat)) :
    Nat → List Nat → Except Err (List Value)
  | _, [] => .ok []
  | 0, _ :: _ => .error .truncated
  | fuel + 1, b :: tl =>
    match f (b :: tl) with
    | .error e => .error e
    | .ok (v, rest) =>
      if rest.length < (b :: tl).length then
        match decodeLoopF f fuel rest with
        | .error e => .error e
        | .ok vs => .ok (v :: vs)
      else .error .truncated

/-- Modelled from the spec: the generic engine's decode operation
(spec section 4.3), dispatching on the descriptor kind.  A defaulted
BOOLEAN whose region is empty or whose leading identifier is not the
BOOLEAN identifier resolves to the compiled-in default without
consuming anything. -/
def decodeVal : Desc → List Nat → Except Err (Value × List Nat)
  | .prim k, bs =>
    (match decodeHdr bs with
     | .error e => .error e
     | .ok (t, content, rest) =>
       if t = ⟨0, isConsKind k, tagOf k⟩ then
         match contentToValue k (mkTLV t content) content with
         | .error e => .error e
         | .ok v => .ok (v, rest)
       else .error .unexpectedTag)
  | .nullD, bs =>
    (match decodeHdr bs with
     | .error e => .error e
     | .ok (t, content, rest) =>
       if t = ⟨0, false, 5⟩ then
         if content = [] then .ok (.nullV, rest) else .error .invalidEncoding
       else .error .unexpectedTag)
  | .boolD none, bs => decodeBoolTLV bs
  | .boolD (some dv), bs =>
    (match bs with
     | [] => .ok (.boolV dv, [])
     | _ :: _ =>
       match decodeHdr bs with
       | .error e => .error e
       | .ok (t, _, _) =>
         if t = boolTag then decodeBoolTLV bs else .ok (.boolV dv, bs))
  | .choice alts, bs =>
    (match decodeHdr bs with
     | .error e => .error e
     | .ok (t, content, rest) =>
       match alts.find? (fun k => tagMatch t k) with
       | some k =>
         match contentToValue k (mkTLV t content) content with
         | .error e => .error e
         | .ok v => .ok (v, rest)
       | none => .error .unexpectedTag)
  | .anyD, bs =>
    (match decodeHdr bs with
     | .error e => .error e
     | .ok (t, content, rest) => .ok (.anyV t content, rest))
  | .seqOf isSet e, bs =>
    (match decodeHdr bs with
     | .error e => .error e
     | .ok (t, content, rest) =>
       if t = seqTag isSet then
         match decodeLoopF (fun bs2 => decodeVal e bs2) content.length content with
         | .error e => .error e
         | .ok vs => .ok (.seqV vs, rest)
       else .error .unexpectedTag)

/-- The single content byte the engine emits for a boolean: the DER
canonical 0xFF for true, 0x00 for false. -/
def boolContent (b : Bool) : List Nat := [if b then 255 else 0]

/-- Modelled from the spec: per-kind primitive emission — raw data for
the plain string kinds, the stored raw TLV for the swallowed SEQUENCE,
minimal two's complement for INTEGER/ENUMERATED (spec section 4.2). -/
def encodePrimStr (k : StrKind) (ty : Nat) (data : List Nat) : List Nat :=
  match k with
  | .sequenceCapture => data
  | .integer => mkTLV ⟨0, false, 2⟩ (i2c ty data)
  | .enumerated => mkTLV ⟨0, false, 10⟩ (i2c ty data)
  | k => mkTLV ⟨0, isConsKind k, tagOf k⟩ data

mutual

/-- Modelled from the spec: the generic engine's encode operation
(spec section 4.3).  A defaulted BOOLEAN equal to its default is
omitted (zero bytes); SET-OF re-orders element encodings into
canonical octet order; a value whose shape does not conform to the
descriptor is an internal invariant violation. -/
def encodeVal : Desc → Value → Except Err (List Nat)
  | .prim k, .str ty data => .ok (encodePrimStr k ty data)
  | .nullD, .nullV => .ok (mkTLV ⟨0, false, 5⟩ [])
  | .boolD none, .boolV b => .ok (mkTLV boolTag (boolContent b))
  | .boolD (some dv), .boolV b =>
    if b = dv then .ok [] else .ok (mkTLV boolTag (boolContent b))
  | .choice alts, .str ty data =>
    (match alts.find? (fun k => decide (VOf k = ty)) with
     | some k => .ok (encodePrimStr k ty data)
     | none => .error .invalidEncoding)
  | .anyD, .anyV t content => .ok (mkTLV t content)
  | .seqOf isSet e, .seqV vs =>
    (match encList e vs with
     | .error e => .error e
     | .ok encs =>
       .ok (mkTLV (seqTag isSet)
         (if isSet then (List.insertionSort lexR encs).flatten else encs.flatten)))
  | _, _ => .error .invalidEncoding

/-- Encodes each element of a SEQUENCE-OF/SET-OF in insertion order. -/
def encList (e : Desc) : List Value → Except Err (List (List Nat))
  | [] => .ok []
  | v :: rest =>
    (match encodeVal e v, encList e rest with
     | .ok b, .ok bsL => .ok (b :: bsL)
     | .error er, _ => .error er
     | _, .error er => .error er)

end

/-- Modelled from the spec: `ASN1_STRING_type_new` allocates a
default/zero string value carrying the given type constant (spec
section 4.3, the `new` operation; called by the `_new` wrappers of
`tasn_typ.cc` line 19). -/
def ASN1_STRING_type_new (t : Nat) : Value := .str t []

def ASN1_OCTET_STRING_new : Value := ASN1_STRING_type_new V_ASN1_OCTET_STRING

def ASN1_INTEGER_new : Value := ASN1_STRING_type_new V_ASN1_INTEGER

def ASN1_ENUMERATED_new : Value := ASN1_STRING_type_new V_ASN1_ENUMERATED

def ASN1_BIT_STRING_new : Value := ASN1_STRING_type_new V_ASN1_BIT_STRING

def ASN1_UTF8STRING_new : Value := ASN1_STRING_type_new V_ASN1_UTF8STRING

def ASN1_PRINTABLESTRING_new : Value := ASN1_STRING_type_new V_ASN1_PRINTABLESTRING

def ASN1_T61STRING_new : Value := ASN1_STRING_type_new V_ASN1_T61STRING

def ASN1_IA5STRING_new : Value := ASN1_STRING_type_new V_ASN1_IA5STRING

def ASN1_GENERALSTRING_new : Value := ASN1_STRING_type_new V_ASN1_GENERALSTRING

def ASN1_UTCTIME_new : Value := ASN1_STRING_type_new V_ASN1_UTCTIME

def ASN1_GENERALIZEDTIME_new : Value := ASN1_STRING_type_new V_ASN1_GENERALIZEDTIME

def ASN1_VISIBLESTRING_new : Value := ASN1_STRING_type_new V_ASN1_VISIBLESTRING

def ASN1_UNIVERSALSTRING_new : Value := ASN1_STRING_type_new V_ASN1_UNIVERSALSTRING

def ASN1_BMPSTRING_new : Value := ASN1_STRING_type_new V_ASN1_BMPSTRING

mutual

/-- Modelled from the spec: the owned children a recursive free
releases from a value (spec section 4.3, the `free` operation); only
collection values own child values. -/
def releasedBy : Value → List Value
  | .seqV vs => relList vs
  | _ => []

/-- The children released from a list of owned elements. -/
def relList : List Value → List Value
  | [] => []
  | v :: rest => v :: (releasedBy v ++ relList rest)

end

/-- Modelled from the spec: `ASN1_STRING_free` — a total release
operation; a null/absent handle releases nothing (spec section 4.3). -/
def ASN1_STRING_free (x : Option Value) : List Value :=
  match x with
  | none => []
  | some v => releasedBy v

def ASN1_OCTET_STRING_free (x : Option Value) : List Value := ASN1_STRING_free x

def ASN1_INTEGER_free (x : Option Value) : List Value := ASN1_STRING_free x

def ASN1_ENUMERATED_free (x : Option Value) : List Value := ASN1_STRING_free x

def ASN1_BIT_STRING_free (x : Option Value) : List Value := ASN1_STRING_free x

def ASN1_UTF8STRING_free (x : Option Value) : List Value := ASN1_STRING_free x

def ASN1_PRINTABLESTRING_free (x : Option Value) : List Value := ASN1_STRING_free x

def ASN1_T61STRING_free (x : Option Value) : List Value := ASN1_STRING_free x

def ASN1_IA5STRING_free (x : Option Value) : List Value := ASN1_STRING_free x

def ASN1_GENERALSTRING_free (x : Option Value) : List Value := ASN1_STRING_free x

def ASN1_UTCTIME_free (x : Option Value) : List Value := ASN1_STRING_free x

def ASN1_GENERALIZEDTIME_free (x : Option Value) : List Value := ASN1_STRING_free x

def ASN1_VISIBLESTRING_free (x : Option Value) : List Value := ASN1_STRING_free x

def ASN1_UNIVERSALSTRING_free (x : Option Value) : List Value := ASN1_STRING_free x

def ASN1_BMPSTRING_free (x : Option Value) : List Value := ASN1_STRING_free x

/-- Modelled from the spec: the generic engine's `new` operation — a
default/zero value matching the descriptor's kind: empty string,
zero-length collection, unset CHOICE/ANY, the compiled-in default for
a defaulted BOOLEAN (spec section 4.3). -/
def newValue : Desc → Value
  | .prim k => ASN1_STRING_type_new (VOf k)
  | .nullD => .nullV
  | .boolD none => .boolV false
  | .boolD (some dv) => .boolV dv
  | .choice _ => .unset
  | .anyD => .unset
  | .seqOf _ _ => .seqV []

/-- The descriptors registered by `tasn_typ.cc` lines 22-35 (string
kinds), 37-47 (NULL, ANY, swallowed SEQUENCE) and 62-79 (BOOLEAN
flavors, element templates). -/
def ASN1_OCTET_STRING_desc : Desc := .prim .octetString

def ASN1_INTEGER_desc : Desc := .prim .integer

def ASN1_ENUMERATED_desc : Desc := .prim .enumerated

def ASN1_BIT_STRING_desc : Desc := .prim .bitString

def ASN1_UTF8STRING_desc : Desc := .prim .utf8

def ASN1_PRINTABLESTRING_desc : Desc := .prim .printable

def ASN1_T61STRING_desc : Desc := .prim .t61

def ASN1_IA5STRING_desc : Desc := .prim .ia5

def ASN1_GENERALSTRING_desc : Desc := .prim .general

def ASN1_UTCTIME_desc : Desc := .prim .utcTime

def ASN1_GENERALIZEDTIME_desc : Desc := .prim .generalizedTime

def ASN1_VISIBLESTRING_desc : Desc := .prim .visible

def ASN1_UNIVERSALSTRING_desc : Desc := .prim .universalString

def ASN1_BMPSTRING_desc : Desc := .prim .bmp

def ASN1_NULL_desc : Desc := .nullD

def ASN1_ANY_desc : Desc := .anyD

def ASN1_SEQUENCE_desc : Desc := .prim .sequenceCapture

def ASN1_BOOLEAN_desc : Desc := .boolD none

def ASN1_TBOOLEAN_desc : Desc := .boolD (some true)

def ASN1_FBOOLEAN_desc : Desc := .boolD (some false)

/-- Modelled from the spec: the ordered alternative kinds admitted by
the `B_ASN1_PRINTABLE` mask of the `ASN1_PRINTABLE` multistring
(`tasn_typ.cc` line 51), in ascending mask-bit order; the
unknown-tag catchall of the mask is not modelled. -/
def ASN1_PRINTABLE_alts : List StrKind :=
  [.numericString, .printable, .t61, .ia5, .bitString, .universalString,
   .bmp, .utf8, .sequenceCapture]

/-- Modelled from the spec: the ordered alternative kinds admitted by
the `B_ASN1_DISPLAYTEXT` mask of the `DISPLAYTEXT` multistring
(`tasn_typ.cc` line 55), in ascending mask-bit order. -/
def DISPLAYTEXT_alts : List StrKind := [.ia5, .visible, .bmp, .utf8]

/-- Modelled from the spec: the ordered alternative kinds admitted by
the `B_ASN1_DIRECTORYSTRING` mask of the `DIRECTORYSTRING` multistring
(`tasn_typ.cc` line 58), in ascending mask-bit order. -/
def DIRECTORYSTRING_alts : List StrKind :=
  [.printable, .t61, .universalString, .bmp, .utf8]

def ASN1_PRINTABLE_desc : Desc := .choice ASN1_PRINTABLE_alts

def DISPLAYTEXT_desc : Desc := .choice DISPLAYTEXT_alts

def DIRECTORYSTRING_desc : Desc := .choice DIRECTORYSTRING_alts

def ASN1_SEQUENCE_ANY_desc : Desc := .seqOf false .anyD

def ASN1_SET_ANY_desc : Desc := .seqOf true .anyD

/-- The types named by the round-trip claim: every string-family kind,
NULL, the three BOOLEAN flavors, ANY, SEQUENCE-OF-ANY, SET-OF-ANY. -/
def c1Descs : List Desc :=
  [ASN1_OCTET_STRING_desc, ASN1_INTEGER_desc, ASN1_ENUMERATED_desc,
   ASN1_BIT_STRING_desc, ASN1_UTF8STRING_desc, ASN1_PRINTABLESTRING_desc,
   ASN1_T61STRING_desc, ASN1_IA5STRING_desc, ASN1_GENERALSTRING_desc,
   ASN1_UTCTIME_desc, ASN1_GENERALIZEDTIME_desc, ASN1_VISIBLESTRING_desc,
   ASN1_UNIVERSALSTRING_desc, ASN1_BMPSTRING_desc, ASN1_NULL_desc,
   ASN1_BOOLEAN_desc, ASN1_TBOOLEAN_desc, ASN1_FBOOLEAN_desc,
   ASN1_ANY_desc, ASN1_SEQUENCE_ANY_desc, ASN1_SET_ANY_desc]

/-- Every descriptor instantiated by `tasn_typ.cc`. -/
def regDescs : List Desc :=
  c1Descs ++ [ASN1_SEQUENCE_desc, ASN1_PRINTABLE_desc, DISPLAYTEXT_desc,
    DIRECTORYSTRING_desc]

/-- The encoding of a value, defaulting to the empty buffer when the
encoder rejects the value (only used beneath a validity premise). -/
def encD (e : Desc) (v : Value) : List Nat :=
  match encodeVal e v with
  | .ok b => b
  | .error _ => []

/-- Validity of an integer-family string value: byte-ranged
sign-magnitude data with no redundant leading zero, the sign bit only
with a nonzero magnitude. -/
def intStrValid (base ty : Nat) (data : List Nat) : Prop :=
  (∀ b ∈ data, b < 256) ∧ (∀ h rest, data = h :: rest → h ≠ 0) ∧
  (ty = base ∨ (ty = base + V_ASN1_NEG ∧ data ≠ []))

/-- Validity of a primitive string-family value for a kind: the
discriminant is the kind's constant and the data satisfies the kind's
content rules; the swallowed SEQUENCE stores a canonically framed
SEQUENCE TLV. -/
def primStrValid (k : StrKind) (ty : Nat) (data : List Nat) : Prop :=
  match k with
  | .integer => intStrValid V_ASN1_INTEGER ty data
  | .enumerated => intStrValid V_ASN1_ENUMERATED ty data
  | .sequenceCapture => ty = V_ASN1_SEQUENCE ∧
      ∃ inner, (∀ b ∈ inner, b < 256) ∧ data = mkTLV (seqTag false) inner
  | k => ty = VOf k ∧ validContent k data = true ∧ ∀ b ∈ data, b < 256

/-- Validity of an in-memory value against a descriptor.  A SET-OF
value is valid when its elements are valid and already in canonical
encoded-octet order (the order decode produces and encode emits). -/
def validVal : Desc → Value → Prop
  | .prim k, v =>
    match v with
    | .str ty data => primStrValid k ty data
    | _ => False
  | .nullD, v => v = .nullV
  | .boolD _, v => ∃ b, v = .boolV b
  | .choice alts, v =>
    match v with
    | .str ty data => ∃ k, k ∈ alts ∧ ty = VOf k ∧ primStrValid k ty data
    | _ => False
  | .anyD, v =>
    match v with
    | .anyV t content => t.cls ≤ 3 ∧ ∀ b ∈ content, b < 256
    | _ => False
  | .seqOf isSet e, v =>
    match v with
    | .seqV vs => (∀ x ∈ vs, validVal e x) ∧
        (isSet = true → List.Sorted lexR (vs.map (encD e)))
    | _ => False

mutual

/-- Modelled from the spec: the structural recursive copy flavor of
the `duplicate` operation (spec section 4.3). -/
def dupStruct : Desc → Value → Value
  | .prim _, .str t d => .str t d
  | .nullD, .nullV => .nullV
  | .boolD _, .boolV b => .boolV b
  | .choice _, .str t d => .str t d
  | .anyD, .anyV t c => .anyV t c
  | .seqOf _ e, .seqV vs => .seqV (dupList e vs)
  | _, v => v

/-- Structural copies of a collection's elements. -/
def dupList (e : Desc) : List Value → List Value
  | [] => []
  | v :: rest => dupStruct e v :: dupList e rest

end

/-- Modelled from the spec: the encode-then-decode flavor of the
`duplicate` operation (spec section 4.3). -/
def dupViaCodec (d : Desc) (v : Value) : Except Err Value :=
  match encodeVal d v with
  | .error e => .error e
  | .ok b =>
    match decodeVal d b with
    | .error e => .error e
    | .ok (w, _) => .ok w

/-- Modelled from the spec: the generic engine's free operation on a
possibly absent root handle (spec section 4.3). -/
def ASN1_item_free (x : Option Value) : List Value :=
  match x with
  | none => []
  | some v => releasedBy v

theorem tagOf_inj : ∀ k k' : StrKind, tagOf k = tagOf k' → k = k' := by decide

theorem VOf_inj : ∀ k k' : StrKind, VOf k = VOf k' → k = k' := by decide

theorem encodeTag_ne_nil (t : AsnTag) : encodeTag t ≠ [] := by
  simp only [encodeTag]
  by_cases h : t.num < 31 <;> simp [h]

theorem mkTLV_ne_nil (t : AsnTag) (c : List Nat) : mkTLV t c ≠ [] := by
  simp only [mkTLV]
  intro h
  rcases List.append_eq_nil.1 (List.append_eq_nil.1 h).1 with ⟨h1, _⟩
  exact encodeTag_ne_nil t h1

theorem find?_VOf (alts : List StrKind) (k : StrKind) (hk : k ∈ alts) :
    alts.find? (fun j => decide (VOf j = VOf k)) = some k := by
  induction alts with
  | nil => simp at hk
  | cons a tl ih =>
    by_cases ha : VOf a = VOf k
    · have : a = k := VOf_inj a k ha
      subst this
      simp [List.find?]
    · have hkt : k ∈ tl := by
        rcases List.mem_cons.1 hk with h | h
        · exact absurd (h ▸ rfl) ha
        · exact h
      simp [List.find?, ha, ih hkt]

theorem find?_tagMatch (alts : List StrKind) (k : StrKind) (hk : k ∈ alts) :
    alts.find? (fun j => tagMatch ⟨0, isConsKind k, tagOf k⟩ j) = some k := by
  induction alts with
  | nil => simp at hk
  | cons a tl ih =>
    by_cases ha : tagMatch ⟨0, isConsKind k, tagOf k⟩ a = true
    · have hak : a = k := by
        simp only [tagMatch, decide_eq_true_eq, AsnTag.mk.injEq] at ha
        exact (tagOf_inj k a ha.2.2).symm
      subst hak
      simp [List.find?, ha]
    · have hkt : k ∈ tl := by
        rcases List.mem_cons.1 hk with h | h
        · subst h
          simp [tagMatch] at ha
        · exact h
      simp only [List.find?]
      rw [Bool.not_eq_true] at ha
      rw [ha]
      exact ih hkt

theorem find?_first {α : Type} (p : α → Bool) (pre post : List α) (k : α)
    (hpre : ∀ j ∈ pre, p j = false) (hk : p k = true) :
    (pre ++ k :: post).find? p = some k := by
  induction pre with
  | nil => simp [List.find?, hk]
  | cons a tl ih =>
    have ha : p a = false := hpre a (by simp)
    simp only [List.cons_append, List.find?, ha]
    exact ih fun j hj => hpre j (by simp [hj])

theorem bytesToNat_pos (h : Nat) (tl : List Nat) (hh : h ≠ 0) :
    0 < bytesToNat (h :: tl) := by
  induction tl using List.reverseRecOn with
  | nil =>
    simp [bytesToNat]
    omega
  | append_singleton ys b ih =>
    rw [show h :: (ys ++ [b]) = (h :: ys) ++ [b] by simp, bytesToNat_append]
    omega

theorem c2i_i2c (base ty : Nat) (data : List Nat) (hbase : base < 256)
    (h : intStrValid base ty data) : c2i base (i2c ty data) = .ok (.str ty data) := by
  obtain ⟨hlt, hhd, hty⟩ := h
  simp only [i2c, c2i]
  rw [if_neg (twosEnc_ne_nil _)]
  rw [if_neg (by rw [minimalTwos_twosEnc]; simp)]
  rcases hty with hty | ⟨hty, hne⟩
  · have hnn : ¬ (V_ASN1_NEG ≤ ty) := by
      simp only [V_ASN1_NEG]
      omega
    rw [if_neg hnn, twosDec_twosEnc]
    have hvnn : ¬ ((bytesToNat data : Int) < 0) := by
      have : 0 ≤ (bytesToNat data : Int) := Int.ofNat_nonneg _
      omega
    rw [if_neg hvnn]
    simp only [Int.toNat_ofNat]
    rw [natToBytes_bytesToNat data hlt hhd, hty]
  · have hnn : V_ASN1_NEG ≤ ty := by
      simp only [V_ASN1_NEG] at hty ⊢
      omega
    rw [if_pos hnn, twosDec_twosEnc]
    rcases hd : data with _ | ⟨h0, tl⟩
    · exact absurd hd hne
    · have hpos : 0 < bytesToNat (h0 :: tl) :=
        bytesToNat_pos h0 tl (hhd h0 tl hd)
      have hneg : -(bytesToNat (h0 :: tl) : Int) < 0 := by omega
      rw [← hd] at hpos hneg ⊢
      rw [if_pos hneg]
      have habs : (-(bytesToNat data : Int)).natAbs = bytesToNat data := by omega
      rw [habs, natToBytes_bytesToNat data hlt hhd, hty]

/-- The identifier a primitive encoding of kind `k` carries. -/
def kindTag (k : StrKind) : AsnTag := ⟨0, isConsKind k, tagOf k⟩

theorem encodePrim_shape (k : StrKind) (ty : Nat) (data : List Nat)
    (h : primStrValid k ty data) :
    ∃ c, encodePrimStr k ty data = mkTLV (kindTag k) c ∧
      contentToValue k (mkTLV (kindTag k) c) c = .ok (.str ty data) := by
  cases k with
  | integer =>
    refine ⟨i2c ty data, rfl, ?_⟩
    simp only [contentToValue]
    exact c2i_i2c V_ASN1_INTEGER ty data (by norm_num [V_ASN1_INTEGER]) h
  | enumerated =>
    refine ⟨i2c ty data, rfl, ?_⟩
    simp only [contentToValue]
    exact c2i_i2c V_ASN1_ENUMERATED ty data (by norm_num [V_ASN1_ENUMERATED]) h
  | sequenceCapture =>
    obtain ⟨hty, inner, _, hdata⟩ := h
    refine ⟨inner, ?_, ?_⟩
    · simp only [encodePrimStr, hdata]
      rfl
    · simp only [contentToValue, hty, hdata]
      rfl
  | octetString =>
    obtain ⟨hty, hvc, _⟩ := h
    exact ⟨data, rfl, by simp only [contentToValue, hvc, if_true, hty]⟩
  | bitString =>
    obtain ⟨hty, hvc, _⟩ := h
    exact ⟨data, rfl, by simp only [contentToValue, hvc, if_true, hty]⟩
  | utf8 =>
    obtain ⟨hty, hvc, _⟩ := h
    exact ⟨data, rfl, by simp only [contentToValue, hvc, if_true, hty]⟩
  | printable =>
    obtain ⟨hty, hvc, _⟩ := h
    exact ⟨data, rfl, by simp only [contentToValue, hvc, if_true, hty]⟩
  | t61 =>
    obtain ⟨hty, hvc, _⟩ := h
    exact ⟨data, rfl, by simp only [contentToValue, hvc, if_true, hty]⟩
  | ia5 =>
    obtain ⟨hty, hvc, _⟩ := h
    exact ⟨data, rfl, by simp only [contentToValue, hvc, if_true, hty]⟩
  | general =>
    obtain ⟨hty, hvc, _⟩ := h
    exact ⟨data, rfl, by simp only [contentToValue, hvc, if_true, hty]⟩
  | utcTime =>
    obtain ⟨hty, hvc, _⟩ := h
    exact ⟨data, rfl, by simp only [contentToValue, hvc, if_true, hty]⟩
  | generalizedTime =>
    obtain ⟨hty, hvc, _⟩ := h
    exact ⟨data, rfl, by simp only [contentToValue, hvc, if_true, hty]⟩
  | visible =>
    obtain ⟨hty, hvc, _⟩ := h
    exact ⟨data, rfl, by simp only [contentToValue, hvc, if_true, hty]⟩
  | universalString =>
    obtain ⟨hty, hvc, _⟩ := h
    exact ⟨data, rfl, by simp only [contentToValue, hvc, if_true, hty]⟩
  | bmp =>
    obtain ⟨hty, hvc, _⟩ := h
    exact ⟨data, rfl, by simp only [contentToValue, hvc, if_true, hty]⟩
  | numericString =>
    obtain ⟨hty, hvc, _⟩ := h
    exact ⟨data, rfl, by simp only [contentToValue, hvc, if_true, hty]⟩

theorem prim_roundtrip (k : StrKind) (ty : Nat) (data rest : List Nat)
    (h : primStrValid k ty data) :
    encodeVal (.prim k) (.str ty data) = .ok (encodePrimStr k ty data) ∧
    decodeVal (.prim k) (encodePrimStr k ty data ++ rest) = .ok (.str ty data, rest) := by
  obtain ⟨c, henc, hcv⟩ := encodePrim_shape k ty data h
  refine ⟨rfl, ?_⟩
  rw [henc]
  have hd := decodeHdr_mkTLV (kindTag k) c rest (by simp [kindTag])
  simp only [kindTag] at hd hcv
  simp only [kindTag, decodeVal, hd, if_true]
  rw [hcv]

theorem choice_roundtrip (alts : List StrKind) (k : StrKind) (ty : Nat)
    (data rest : List Nat) (hk : k ∈ alts) (hty : ty = VOf k)
    (h : primStrValid k ty data) :
    encodeVal (.choice alts) (.str ty data) = .ok (encodePrimStr k ty data) ∧
    decodeVal (.choice alts) (encodePrimStr k ty data ++ rest) =
      .ok (.str ty data, rest) := by
  obtain ⟨c, henc, hcv⟩ := encodePrim_shape k ty data h
  constructor
  · simp only [encodeVal, hty, find?_VOf alts k hk]
  · rw [henc]
    have hd := decodeHdr_mkTLV (kindTag k) c rest (by simp [kindTag])
    simp only [kindTag] at hd hcv
    simp only [kindTag, decodeVal, hd]
    rw [find?_tagMatch alts k hk]
    simp only []
    rw [hcv]

theorem null_decode (rest : List Nat) :
    decodeVal .nullD (mkTLV ⟨0, false, 5⟩ [] ++ rest) = .ok (.nullV, rest) := by
  have hd := decodeHdr_mkTLV ⟨0, false, 5⟩ [] rest (by simp)
  simp [decodeVal, hd]

theorem boolTLV_decode (b : Bool) (rest : List Nat) :
    decodeBoolTLV (mkTLV boolTag (boolContent b) ++ rest) = .ok (.boolV b, rest) := by
  cases b with
  | false =>
    have hd := decodeHdr_mkTLV boolTag [0] rest (by simp [boolTag])
    simp [decodeBoolTLV, boolContent, hd]
  | true =>
    have hd := decodeHdr_mkTLV boolTag [255] rest (by simp [boolTag])
    simp [decodeBoolTLV, boolContent, hd]

theorem boolNone_decode (b : Bool) (rest : List Nat) :
    decodeVal (.boolD none) (mkTLV boolTag (boolContent b) ++ rest) =
      .ok (.boolV b, rest) := boolTLV_decode b rest

theorem boolDefault_present (dv : Option Bool) (b : Bool) (rest : List Nat) :
    decodeVal (.boolD dv) (mkTLV boolTag (boolContent b) ++ rest) =
      .ok (.boolV b, rest) := by
  cases dv with
  | none => exact boolNone_decode b rest
  | some dflt =>
    have hd := decodeHdr_mkTLV boolTag (boolContent b) rest (by simp [boolTag])
    rcases hl : mkTLV boolTag (boolContent b) ++ rest with _ | ⟨x, xs⟩
    · exact absurd (List.append_eq_nil.1 hl).1 (mkTLV_ne_nil _ _)
    · simp only [decodeVal]
      rw [← hl, hd]
      simp only [if_pos rfl]
      exact boolTLV_decode b rest

theorem boolDefault_absent (dv : Bool) (t : AsnTag) (content rest : List Nat)
    (hcls : t.cls ≤ 3) (hne : t ≠ boolTag) :
    decodeVal (.boolD (some dv)) (mkTLV t content ++ rest) =
      .ok (.boolV dv, mkTLV t content ++ rest) := by
  have hd := decodeHdr_mkTLV t content rest hcls
  rcases hl : mkTLV t content ++ rest with _ | ⟨x, xs⟩
  · exact absurd (List.append_eq_nil.1 hl).1 (mkTLV_ne_nil _ _)
  · simp only [decodeVal]
    rw [← hl, hd]
    simp only [if_neg hne]

theorem any_decode (t : AsnTag) (content rest : List Nat) (hcls : t.cls ≤ 3) :
    decodeVal .anyD (mkTLV t content ++ rest) = .ok (.anyV t content, rest) := by
  have hd := decodeHdr_mkTLV t content rest hcls
  simp [decodeVal, hd]

theorem valid_any_shape (v : Value) (hv : validVal .anyD v) :
    ∃ t content, v = .anyV t content ∧ t.cls ≤ 3 ∧ (∀ b ∈ content, b < 256) ∧
      encodeVal .anyD v = .ok (mkTLV t content) ∧ encD .anyD v = mkTLV t content := by
  cases v with
  | anyV t content =>
    simp only [validVal] at hv
    exact ⟨t, content, rfl, hv.1, hv.2, rfl, rfl⟩
  | str ty data => simp [validVal] at hv
  | nullV => simp [validVal] at hv
  | boolV b => simp [validVal] at hv
  | seqV vs => simp [validVal] at hv
  | unset => simp [validVal] at hv

theorem encList_any (vs : List Value) (hv : ∀ v ∈ vs, validVal .anyD v) :
    encList .anyD vs = .ok (vs.map (encD .anyD)) := by
  induction vs with
  | nil => rfl
  | cons v tl ih =>
    obtain ⟨t, c, hveq, _, _, henc, hencD⟩ :=
      valid_any_shape v (hv v (by simp))
    simp only [encList, List.map]
    rw [henc, ih fun x hx => hv x (by simp [hx]), hencD]

theorem decodeLoop_any (vs : List Value) (hv : ∀ v ∈ vs, validVal .anyD v) :
    ∀ fuel, ((vs.map (encD .anyD)).flatten).length ≤ fuel →
    decodeLoopF (fun bs => decodeVal .anyD bs) fuel ((vs.map (encD .anyD)).flatten) =
      .ok vs := by
  induction vs with
  | nil =>
    intro fuel _
    cases fuel <;> rfl
  | cons v tl ih =>
    intro fuel hfuel
    obtain ⟨t, c, hveq, hcls, _, _, hencD⟩ := valid_any_shape v (hv v (by simp))
    simp only [List.map, List.flatten, hencD] at hfuel ⊢
    have hne : mkTLV t c ≠ [] := mkTLV_ne_nil t c
    have hpos : 0 < (mkTLV t c).length := List.length_pos.2 hne
    obtain ⟨x, xs, hx⟩ := List.exists_cons_of_ne_nil hne
    cases fuel with
    | zero =>
      rw [List.length_append] at hfuel
      omega
    | succ g =>
      rw [hx, List.cons_append]
      simp only [decodeLoopF]
      rw [← List.cons_append, ← hx,
        any_decode t c ((tl.map (encD .anyD)).flatten) hcls]
      simp only []
      have hlt : ((tl.map (encD .anyD)).flatten).length <
          (mkTLV t c ++ (tl.map (encD .anyD)).flatten).length := by
        rw [List.length_append]
        omega
      rw [if_pos hlt]
      have hg : ((tl.map (encD .anyD)).flatten).length ≤ g := by
        rw [List.length_append] at hfuel
        omega
      rw [ih (fun x hx2 => hv x (by simp [hx2])) g hg, hveq]

theorem seqAny_roundtrip (isSet : Bool) (vs : List Value) (rest : List Nat)
    (hv : validVal (.seqOf isSet .anyD) (.seqV vs)) :
    encodeVal (.seqOf isSet .anyD) (.seqV vs) =
      .ok (mkTLV (seqTag isSet) ((vs.map (encD .anyD)).flatten)) ∧
    decodeVal (.seqOf isSet .anyD)
        (mkTLV (seqTag isSet) ((vs.map (encD .anyD)).flatten) ++ rest) =
      .ok (.seqV vs, rest) := by
  simp only [validVal] at hv
  obtain ⟨helem, hsort⟩ := hv
  have henc : encodeVal (.seqOf isSet .anyD) (.seqV vs) =
      .ok (mkTLV (seqTag isSet) ((vs.map (encD .anyD)).flatten)) := by
    simp only [encodeVal, encList_any vs helem]
    cases isSet with
    | false => simp
    | true =>
      simp only [if_pos rfl]
      rw [List.Sorted.insertionSort_eq (hsort rfl)]
      simp
  refine ⟨henc, ?_⟩
  have hd := decodeHdr_mkTLV (seqTag isSet) ((vs.map (encD .anyD)).flatten) rest
    (by simp [seqTag])
  simp only [decodeVal, hd, if_pos rfl]
  have hfun : (fun bs2 => match decodeHdr bs2 with
      | .error e => (.error e : Except Err (Value × List Nat))
      | .ok (t, content, rest) => .ok (.anyV t content, rest)) =
      (fun bs2 => decodeVal .anyD bs2) := rfl
  rw [hfun, decodeLoop_any vs helem _ (le_refl _)]
  simp

theorem rt_prim (k : StrKind) (v : Value) (hv : validVal (.prim k) v) :
    ∃ bs, encodeVal (.prim k) v = .ok bs ∧ decodeVal (.prim k) bs = .ok (v, []) := by
  cases v with
  | str ty data =>
    simp only [validVal] at hv
    obtain ⟨henc, hdec⟩ := prim_roundtrip k ty data [] hv
    exact ⟨_, henc, by simpa using hdec⟩
  | nullV => simp [validVal] at hv
  | boolV b => simp [validVal] at hv
  | anyV t c => simp [validVal] at hv
  | seqV vs => simp [validVal] at hv
  | unset => simp [validVal] at hv

theorem rt_choice (alts : List StrKind) (v : Value)
    (hv : validVal (.choice alts) v) :
    ∃ bs, encodeVal (.choice alts) v = .ok bs ∧
      decodeVal (.choice alts) bs = .ok (v, []) := by
  cases v with
  | str ty data =>
    simp only [validVal] at hv
    obtain ⟨k, hk, hty, hps⟩ := hv
    obtain ⟨henc, hdec⟩ := choice_roundtrip alts k ty data [] hk hty hps
    exact ⟨_, henc, by simpa using hdec⟩
  | nullV => simp [validVal] at hv
  | boolV b => simp [validVal] at hv
  | anyV t c => simp [validVal] at hv
  | seqV vs => simp [validVal] at hv
  | unset => simp [validVal] at hv

theorem rt_null (v : Value) (hv : validVal .nullD v) :
    ∃ bs, encodeVal .nullD v = .ok bs ∧ decodeVal .nullD bs = .ok (v, []) := by
  have : v = .nullV := hv
  subst this
  exact ⟨_, rfl, by simpa using null_decode []⟩

theorem rt_boolNone (v : Value) (hv : validVal (.boolD none) v) :
    ∃ bs, encodeVal (.boolD none) v = .ok bs ∧
      decodeVal (.boolD none) bs = .ok (v, []) := by
  obtain ⟨b, rfl⟩ := hv
  exact ⟨_, rfl, by simpa using boolNone_decode b []⟩

theorem rt_boolSome (dv : Bool) (v : Value) (hv : validVal (.boolD (some dv)) v) :
    ∃ bs, encodeVal (.boolD (some dv)) v = .ok bs ∧
      decodeVal (.boolD (some dv)) bs = .ok (v, []) := by
  obtain ⟨b, rfl⟩ := hv
  by_cases hbd : b = dv
  · subst hbd
    exact ⟨[], by simp [encodeVal], rfl⟩
  · refine ⟨mkTLV boolTag (boolContent b), by simp [encodeVal, hbd], ?_⟩
    simpa using boolDefault_present (some dv) b []

theorem rt_any (v : Value) (hv : validVal .anyD v) :
    ∃ bs, encodeVal .anyD v = .ok bs ∧ decodeVal .anyD bs = .ok (v, []) := by
  obtain ⟨t, c, rfl, hcls, _, henc, _⟩ := valid_any_shape v hv
  exact ⟨_, henc, by simpa using any_decode t c [] hcls⟩

theorem rt_seq (isSet : Bool) (v : Value) (hv : validVal (.seqOf isSet .anyD) v) :
    ∃ bs, encodeVal (.seqOf isSet .anyD) v = .ok bs ∧
      decodeVal (.seqOf isSet .anyD) bs = .ok (v, []) := by
  cases v with
  | seqV vs =>
    obtain ⟨henc, hdec⟩ := seqAny_roundtrip isSet vs [] hv
    exact ⟨_, henc, by simpa using hdec⟩
  | str ty data => simp [validVal] at hv
  | nullV => simp [validVal] at hv
  | boolV b => simp [validVal] at hv
  | anyV t c => simp [validVal] at hv
  | unset => simp [validVal] at hv

theorem reg_roundtrip : ∀ d ∈ regDescs, ∀ v, validVal d v →
    ∃ bs, encodeVal d v = .ok bs ∧ decodeVal d bs = .ok (v, []) := by
  intro d hd v hv
  simp only [regDescs, c1Descs, ASN1_OCTET_STRING_desc, ASN1_INTEGER_desc,
    ASN1_ENUMERATED_desc, ASN1_BIT_STRING_desc, ASN1_UTF8STRING_desc,
    ASN1_PRINTABLESTRING_desc, ASN1_T61STRING_desc, ASN1_IA5STRING_desc,
    ASN1_GENERALSTRING_desc, ASN1_UTCTIME_desc, ASN1_GENERALIZEDTIME_desc,
    ASN1_VISIBLESTRING_desc, ASN1_UNIVERSALSTRING_desc, ASN1_BMPSTRING_desc,
    ASN1_NULL_desc, ASN1_BOOLEAN_desc, ASN1_TBOOLEAN_desc, ASN1_FBOOLEAN_desc,
    ASN1_ANY_desc, ASN1_SEQUENCE_ANY_desc, ASN1_SET_ANY_desc,
    ASN1_SEQUENCE_desc, ASN1_PRINTABLE_desc, DISPLAYTEXT_desc,
    DIRECTORYSTRING_desc, List.mem_append, List.mem_cons,
    List.not_mem_nil, or_false, or_assoc] at hd
  rcases hd with rfl | rfl | rfl | rfl | rfl | rfl | rfl | rfl | rfl | rfl | rfl |
    rfl | rfl | rfl | rfl | rfl | rfl | rfl | rfl | rfl | rfl | rfl | rfl | rfl | rfl
  · exact rt_prim _ v hv
  · exact rt_prim _ v hv
  · exact rt_prim _ v hv
  · exact rt_prim _ v hv
  · exact rt_prim _ v hv
  · exact rt_prim _ v hv
  · exact rt_prim _ v hv
  · exact rt_prim _ v hv
  · exact rt_prim _ v hv
  · exact rt_prim _ v hv
  · exact rt_prim _ v hv
  · exact rt_prim _ v hv
  · exact rt_prim _ v hv
  · exact rt_prim _ v hv
  · exact rt_null v hv
  · exact rt_boolNone v hv
  · exact rt_boolSome true v hv
  · exact rt_boolSome false v hv
  · exact rt_any v hv
  · exact rt_seq false v hv
  · exact rt_seq true v hv
  · exact rt_prim _ v hv
  · exact rt_choice _ v hv
  · exact rt_choice _ v hv
  · exact rt_choice _ v hv

theorem c1_sub_reg : ∀ d ∈ c1Descs, d ∈ regDescs := by
  intro d hd
  simp only [regDescs, List.mem_append]
  exact Or.inl hd

theorem dupStruct_eq : ∀ (d : Desc) (v : Value), validVal d v → dupStruct d v = v := by
  intro d
  induction d with
  | prim k => intro v _; cases v <;> rfl
  | nullD => intro v _; cases v <;> rfl
  | boolD dflt => intro v _; cases v <;> rfl
  | choice alts => intro v _; cases v <;> rfl
  | anyD => intro v _; cases v <;> rfl
  | seqOf isSet e ih =>
    intro v hv
    cases v with
    | seqV vs =>
      simp only [validVal] at hv
      obtain ⟨helem, _⟩ := hv
      simp only [dupStruct]
      have hlist : ∀ ws : List Value, (∀ x ∈ ws, validVal e x) → dupList e ws = ws := by
        intro ws
        induction ws with
        | nil => intro _; rfl
        | cons x tl ihl =>
          intro h
          simp only [dupList]
          rw [ih x (h x (by simp)), ihl fun y hy => h y (by simp [hy])]
      rw [hlist vs helem]
    | str ty data => rfl
    | nullV => rfl
    | boolV b => rfl
    | anyV t c => rfl
    | unset => rfl

/-- Claim C1: for every type instantiated by the excerpt (each
string-family kind, NULL, the three BOOLEAN flavors, ANY,
SEQUENCE-OF-ANY, SET-OF-ANY), decode after encode is the identity on
valid in-memory values, and encode after decode is the identity on
every canonical DER byte string the descriptor accepts (a canonical
string being the encoding of some valid value). -/
theorem C1_roundtrip : ∀ d ∈ c1Descs,
    (∀ v, validVal d v →
      ∃ bs, encodeVal d v = .ok bs ∧ decodeVal d bs = .ok (v, [])) ∧
    (∀ b, (∃ v, validVal d v ∧ encodeVal d v = .ok b) →
      ∃ w, decodeVal d b = .ok (w, []) ∧ encodeVal d w = .ok b) := by
  intro d hd
  have hreg := c1_sub_reg d hd
  constructor
  · intro v hv
    exact reg_roundtrip d hreg v hv
  · rintro b ⟨v, hv, henc⟩
    obtain ⟨bs, henc', hdec⟩ := reg_roundtrip d hreg v hv
    rw [henc] at henc'
    injection henc' with hbs
    subst hbs
    exact ⟨v, hdec, henc⟩

theorem C1_roundtrip_witness :
    (∃ bs, encodeVal (.prim .octetString) (.str 4 [171]) = .ok bs ∧
      decodeVal (.prim .octetString) bs = .ok (.str 4 [171], [])) ∧
    (∃ w, decodeVal (.prim .integer) [2, 2, 254, 203] = .ok (w, []) ∧
      encodeVal (.prim .integer) w = .ok [2, 2, 254, 203]) := by
  have hmem : (Desc.prim .octetString) ∈ c1Descs := by
    simp [c1Descs, ASN1_OCTET_STRING_desc]
  have hmem2 : (Desc.prim .integer) ∈ c1Descs := by
    simp [c1Descs, ASN1_INTEGER_desc]
  constructor
  · exact (C1_roundtrip _ hmem).1 (.str 4 [171])
      ⟨rfl, rfl, by simp⟩
  · exact (C1_roundtrip _ hmem2).2 [2, 2, 254, 203]
      ⟨.str 258 [1, 53], ⟨by simp, by simp, Or.inr ⟨rfl, by simp⟩⟩, rfl⟩

/-- Claim C7: for every descriptor instantiated by the excerpt and
every valid value, duplication by encode-then-decode and duplication
by structural recursive copy agree. -/
theorem C7_duplicate : ∀ d ∈ regDescs, ∀ v, validVal d v →
    dupViaCodec d v = .ok (dupStruct d v) := by
  intro d hd v hv
  obtain ⟨bs, henc, hdec⟩ := reg_roundtrip d hd v hv
  rw [dupStruct_eq d v hv]
  simp only [dupViaCodec, henc, hdec]

theorem C7_duplicate_witness :
    dupViaCodec ASN1_SET_ANY_desc
        (.seqV [.anyV ⟨0, false, 5⟩ []]) =
      .ok (dupStruct ASN1_SET_ANY_desc (.seqV [.anyV ⟨0, false, 5⟩ []])) := by
  have hmem : ASN1_SET_ANY_desc ∈ regDescs := by
    simp [regDescs, c1Descs]
  exact C7_duplicate _ hmem _
    ⟨by
      intro x hx
      simp only [List.mem_singleton] at hx
      subst hx
      exact ⟨by norm_num, by simp⟩,
     by
      intro _
      simp [List.Sorted]⟩

/-- Claim C4: encoding a SET-OF value is invariant under permutation
of its elements (they are re-sorted into canonical encoded-octet
order), while a SEQUENCE-OF encodes its elements in insertion
order. -/
theorem C4_set_order :
    (∀ vs1 vs2 : List Value, (∀ v ∈ vs1, validVal .anyD v) → vs1.Perm vs2 →
      encodeVal ASN1_SET_ANY_desc (.seqV vs1) =
        encodeVal ASN1_SET_ANY_desc (.seqV vs2)) ∧
    (∀ vs : List Value, (∀ v ∈ vs, validVal .anyD v) →
      encodeVal ASN1_SEQUENCE_ANY_desc (.seqV vs) =
        .ok (mkTLV (seqTag false) ((vs.map (encD .anyD)).flatten))) := by
  constructor
  · intro vs1 vs2 hv1 hp
    have hv2 : ∀ v ∈ vs2, validVal .anyD v := fun v hv => hv1 v (hp.symm.subset hv)
    simp only [ASN1_SET_ANY_desc, encodeVal, encList_any vs1 hv1,
      encList_any vs2 hv2]
    have hperm : (vs1.map (encD .anyD)).Perm (vs2.map (encD .anyD)) := hp.map _
    have hsorteq : List.insertionSort lexR (vs1.map (encD .anyD)) =
        List.insertionSort lexR (vs2.map (encD .anyD)) :=
      List.eq_of_perm_of_sorted
        ((List.perm_insertionSort lexR _).trans
          (hperm.trans (List.perm_insertionSort lexR _).symm))
        (List.sorted_insertionSort lexR _)
        (List.sorted_insertionSort lexR _)
    rw [hsorteq]
    simp
  · intro vs hv
    simp only [ASN1_SEQUENCE_ANY_desc, encodeVal, encList_any vs hv]
    simp

theorem C4_set_order_witness :
    encodeVal ASN1_SET_ANY_desc
        (.seqV [.anyV ⟨0, false, 5⟩ [7], .anyV ⟨0, false, 1⟩ [255]]) =
      encodeVal ASN1_SET_ANY_desc
        (.seqV [.anyV ⟨0, false, 1⟩ [255], .anyV ⟨0, false, 5⟩ [7]]) := by
  refine C4_set_order.1 _ _ ?_ (List.Perm.swap _ _ _)
  intro v hv
  simp only [List.mem_cons, List.not_mem_nil, or_false] at hv
  rcases hv with rfl | rfl
  · exact ⟨by norm_num, by simp⟩
  · exact ⟨by norm_num, by simp⟩

theorem decodeVal_hdr_error (d : Desc) (x : Nat) (xs : List Nat) (e : Err)
    (h : decodeHdr (x :: xs) = .error e) : decodeVal d (x :: xs) = .error e := by
  cases d with
  | prim k => simp [decodeVal, h]
  | nullD => simp [decodeVal, h]
  | boolD dflt =>
    cases dflt with
    | none => simp [decodeVal, decodeBoolTLV, h]
    | some dv => simp [decodeVal, h]
  | choice alts => simp [decodeVal, h]
  | anyD => simp [decodeVal, h]
  | seqOf isSet el => simp [decodeVal, h]

theorem decodeTag_low (t : Nat) (rest : List Nat) (h : t % 32 < 31) :
    decodeTag (t :: rest) = .ok (⟨t / 64, decide (t / 32 % 2 = 1), t % 32⟩, rest) := by
  simp [decodeTag, h]

theorem decodeHdr_lenErr (t : Nat) (lenbs : List Nat) (e : Err) (h : t % 32 < 31)
    (hl : decodeLen lenbs = .error e) : decodeHdr (t :: lenbs) = .error e := by
  simp [decodeHdr, decodeTag_low t lenbs h, hl]

theorem decodeLen_indef (rest : List Nat) :
    decodeLen (128 :: rest) = .error .invalidLength := by
  simp [decodeLen]

theorem decodeLen_short_over (b : Nat) (rest : List Nat) (hb : b < 128)
    (hov : rest.length < b) : decodeLen (b :: rest) = .error .invalidLength := by
  simp only [decodeLen, if_pos hb]
  rw [if_neg (by omega)]

theorem decodeLen_leadZero (b : Nat) (rest : List Nat) (hb : 128 < b) :
    decodeLen (b :: 0 :: rest) = .error .invalidLength := by
  simp only [decodeLen]
  rw [if_neg (by omega), if_neg (by omega)]
  simp

theorem decodeLen_long_over (c : Nat) (rest : List Nat) (hc : c ≠ 0)
    (hov : rest.length < c) : decodeLen (129 :: c :: rest) = .error .invalidLength := by
  simp only [decodeLen]
  rw [if_neg (by omega), if_neg (by omega), if_neg hc]
  have h1 : 129 - 128 = 1 := by omega
  rw [h1]
  have h2 : 1 ≤ (c :: rest).length := by simp
  rw [if_pos h2]
  simp only [List.take, List.drop]
  have h3 : bytesToNat [c] = c := by simp [bytesToNat]
  rw [h3]
  rw [if_neg (by omega)]

/-- Minimality of a length-octet run: short form below 128, otherwise
a long form whose count octet is exceeded by 128, whose first length
octet is nonzero, and whose octet count matches the count octet. -/
def minimalLenOcts : List Nat → Bool
  | [] => false
  | [b] => decide (b < 128)
  | b :: c :: rest =>
    decide (128 < b) && decide (c ≠ 0) && decide ((c :: rest).length = b - 128)

theorem encodeLen_minimal (n : Nat) : minimalLenOcts (encodeLen n) = true := by
  by_cases hn : n < 128
  · simp [encodeLen, hn, minimalLenOcts]
  · simp only [encodeLen, if_neg hn]
    rcases hcons : natToBytes n with _ | ⟨h0, tl⟩
    · exact absurd hcons (natToBytes_ne_nil (by omega))
    · have hh0 : h0 ≠ 0 := natToBytes_head_ne_zero n h0 tl (by omega) hcons
      simp only [minimalLenOcts, List.length_cons, Bool.and_eq_true,
        decide_eq_true_eq]
      refine ⟨⟨by omega, hh0⟩, by omega⟩

/-- Claim C2: decode fails with the invalid-length error — never
producing a value — on the reserved indefinite-form length octet, on a
stated length (short or long form) exceeding the remaining buffer, and
on a long-form length with a redundant leading zero octet; and the
encoder's length octets are always minimal and its INTEGER content is
always minimal two's complement. -/
theorem C2_minimal_length :
    (∀ d ∈ regDescs, ∀ t rest, t % 32 < 31 →
      decodeVal d (t :: 128 :: rest) = .error .invalidLength ∧
      (∀ b, b < 128 → rest.length < b →
        decodeVal d (t :: b :: rest) = .error .invalidLength) ∧
      (∀ b, 128 < b → decodeVal d (t :: b :: 0 :: rest) = .error .invalidLength) ∧
      (∀ c, c ≠ 0 → rest.length < c →
        decodeVal d (t :: 129 :: c :: rest) = .error .invalidLength)) ∧
    (∀ n, minimalLenOcts (encodeLen n) = true) ∧
    (∀ v : Int, minimalTwos (twosEnc v) = true) := by
  refine ⟨?_, encodeLen_minimal, minimalTwos_twosEnc⟩
  intro d _ t rest ht
  refine ⟨?_, ?_, ?_, ?_⟩
  · exact decodeVal_hdr_error d t _ _
      (decodeHdr_lenErr t _ _ ht (decodeLen_indef rest))
  · intro b hb hov
    exact decodeVal_hdr_error d t _ _
      (decodeHdr_lenErr t _ _ ht (decodeLen_short_over b rest hb hov))
  · intro b hb
    exact decodeVal_hdr_error d t _ _
      (decodeHdr_lenErr t _ _ ht (decodeLen_leadZero b rest hb))
  · intro c hc hov
    exact decodeVal_hdr_error d t _ _
      (decodeHdr_lenErr t _ _ ht (decodeLen_long_over c rest hc hov))

theorem C2_minimal_length_witness :
    decodeVal (.prim .octetString) [4, 128] = .error .invalidLength ∧
    decodeVal (.prim .octetString) [4, 5, 1] = .error .invalidLength ∧
    decodeVal (.prim .octetString) [4, 130, 0, 1] = .error .invalidLength ∧
    decodeVal (.prim .octetString) [4, 129, 200] = .error .invalidLength ∧
    minimalLenOcts (encodeLen 300) = true ∧
    minimalTwos (twosEnc (-300)) = true := by
  have hmem : (Desc.prim .octetString) ∈ regDescs := by
    simp [regDescs, c1Descs, ASN1_OCTET_STRING_desc]
  have hc := C2_minimal_length
  have h1 := hc.1 _ hmem 4 [] (by norm_num)
  have h2 := hc.1 _ hmem 4 [1] (by norm_num)
  have h3 := hc.1 _ hmem 4 [0, 1] (by norm_num)
  exact ⟨h1.1, h2.2.1 5 (by norm_num) (by simp),
    h3.2.2.1 130 (by norm_num), h1.2.2.2 200 (by norm_num) (by simp),
    hc.2.1 300, hc.2.2 (-300)⟩

/-- Claim C3: for each multistring CHOICE registered by the excerpt,
decode selects the first-listed alternative whose kind matches the
wire identifier — never a later one — and fails with the
unexpected-tag error when no alternative matches. -/
theorem C3_multistring :
    ∀ alts ∈ [ASN1_PRINTABLE_alts, DISPLAYTEXT_alts, DIRECTORYSTRING_alts],
      (∀ t content rest, t.cls ≤ 3 →
        (∀ j ∈ alts, tagMatch t j = false) →
        decodeVal (.choice alts) (mkTLV t content ++ rest) =
          .error .unexpectedTag) ∧
      (∀ t content rest pre k post, t.cls ≤ 3 → alts = pre ++ k :: post →
        (∀ j ∈ pre, tagMatch t j = false) → tagMatch t k = true →
        ∀ v, contentToValue k (mkTLV t content) content = .ok v →
          decodeVal (.choice alts) (mkTLV t content ++ rest) = .ok (v, rest)) := by
  intro alts _
  constructor
  · intro t content rest hcls hnone
    have hd := decodeHdr_mkTLV t content rest hcls
    have hfind : alts.find? (fun k => tagMatch t k) = none :=
      List.find?_eq_none.2 fun j hj => by simp [hnone j hj]
    simp [decodeVal, hd, hfind]
  · intro t content rest pre k post hcls halts hpre hk v hcv
    subst halts
    have hd := decodeHdr_mkTLV t content rest hcls
    have hfind : (pre ++ k :: post).find? (fun j => tagMatch t j) = some k :=
      find?_first _ pre post k hpre hk
    simp [decodeVal, hd, hfind, hcv]

theorem C3_multistring_witness :
    decodeVal (.choice DISPLAYTEXT_alts) [30, 2, 0, 65] =
      .ok (.str 30 [0, 65], []) ∧
    decodeVal (.choice DISPLAYTEXT_alts) [19, 1, 65] =
      .error .unexpectedTag := by
  have hmem : DISPLAYTEXT_alts ∈
      [ASN1_PRINTABLE_alts, DISPLAYTEXT_alts, DIRECTORYSTRING_alts] := by simp
  have hc := C3_multistring DISPLAYTEXT_alts hmem
  constructor
  · have := hc.2 ⟨0, false, 30⟩ [0, 65] [] [.ia5, .visible] .bmp [.utf8]
      (by norm_num) rfl (by decide) (by decide) (.str 30 [0, 65]) rfl
    simpa using this
  · have := hc.1 ⟨0, false, 19⟩ [65] [] (by norm_num) (by decide)
    simpa using this

theorem boolSome_tlv (dv : Bool) (content rest : List Nat) :
    decodeVal (.boolD (some dv)) (mkTLV boolTag content ++ rest) =
      decodeBoolTLV (mkTLV boolTag content ++ rest) := by
  have hd := decodeHdr_mkTLV boolTag content rest (by simp [boolTag])
  rcases hl : mkTLV boolTag content ++ rest with _ | ⟨x, xs⟩
  · exact absurd (List.append_eq_nil.1 hl).1 (mkTLV_ne_nil _ _)
  · simp only [decodeVal]
    rw [← hl, hd]
    simp

theorem boolTLV_decode_byte (b : Nat) (rest : List Nat) :
    decodeBoolTLV (mkTLV boolTag [b] ++ rest) =
      .ok (.boolV (decide (b ≠ 0)), rest) := by
  have hd := decodeHdr_mkTLV boolTag [b] rest (by simp [boolTag])
  simp [decodeBoolTLV, hd]

theorem boolTLV_decode_badlen (content rest : List Nat)
    (h : content.length ≠ 1) :
    decodeBoolTLV (mkTLV boolTag content ++ rest) = .error .invalidEncoding := by
  have hd := decodeHdr_mkTLV boolTag content rest (by simp [boolTag])
  rcases content with _ | ⟨x, _ | ⟨y, tl⟩⟩
  · simp [decodeBoolTLV, hd]
  · simp at h
  · simp [decodeBoolTLV, hd]

/-- Claim C5: for the DEFAULT-TRUE and DEFAULT-FALSE BOOLEAN types,
decoding a region where the boolean TLV is absent (empty region, or a
leading identifier other than BOOLEAN) yields the compiled-in default
without consuming any bytes, and encoding a value equal to the default
emits zero bytes. -/
theorem C5_bool_default :
    decodeVal ASN1_TBOOLEAN_desc [] = .ok (.boolV true, []) ∧
    decodeVal ASN1_FBOOLEAN_desc [] = .ok (.boolV false, []) ∧
    (∀ dv : Bool, ∀ t content rest, t.cls ≤ 3 → t ≠ boolTag →
      decodeVal (.boolD (some dv)) (mkTLV t content ++ rest) =
        .ok (.boolV dv, mkTLV t content ++ rest)) ∧
    encodeVal ASN1_TBOOLEAN_desc (.boolV true) = .ok [] ∧
    encodeVal ASN1_FBOOLEAN_desc (.boolV false) = .ok [] :=
  ⟨rfl, rfl,
   fun dv t content rest hcls hne => boolDefault_absent dv t content rest hcls hne,
   rfl, rfl⟩

theorem C5_bool_default_witness :
    decodeVal ASN1_TBOOLEAN_desc [4, 1, 7] = .ok (.boolV true, [4, 1, 7]) := by
  have h := C5_bool_default.2.2.1 true ⟨0, false, 4⟩ [7] [] (by norm_num)
    (by simp [boolTag])
  simpa using h

/-- Claim C6 counterexample: for the DEFAULT-TRUE BOOLEAN flavor,
encoding the value true emits zero bytes — not the canonical single
content byte 0xFF the claim demands of every flavor. -/
theorem C6_counterexample :
    encodeVal ASN1_TBOOLEAN_desc (.boolV true) = .ok [] ∧
    (255 : Nat) ∉ ([] : List Nat) := ⟨rfl, by simp⟩

/-- Claim C6 (amended): for every BOOLEAN flavor, decode requires the
content to be exactly one byte, maps byte 0x00 to false and every
nonzero byte to true; whenever encode emits a boolean TLV — always for
plain BOOLEAN, and for the defaulted flavors exactly when the value
differs from the default — the content byte for true is the canonical
0xFF; a defaulted flavor's value equal to its default is emitted as
zero bytes. -/
theorem C6_boolean_amended :
    (∀ d ∈ [ASN1_BOOLEAN_desc, ASN1_TBOOLEAN_desc, ASN1_FBOOLEAN_desc],
      (∀ b rest, decodeVal d (mkTLV boolTag [b] ++ rest) =
        .ok (.boolV (decide (b ≠ 0)), rest)) ∧
      (∀ content rest, content.length ≠ 1 →
        decodeVal d (mkTLV boolTag content ++ rest) =
          .error .invalidEncoding)) ∧
    boolContent true = [255] ∧
    encodeVal ASN1_BOOLEAN_desc (.boolV true) = .ok (mkTLV boolTag [255]) ∧
    encodeVal ASN1_FBOOLEAN_desc (.boolV true) = .ok (mkTLV boolTag [255]) ∧
    encodeVal ASN1_BOOLEAN_desc (.boolV false) = .ok (mkTLV boolTag [0]) ∧
    encodeVal ASN1_TBOOLEAN_desc (.boolV false) = .ok (mkTLV boolTag [0]) ∧
    encodeVal ASN1_TBOOLEAN_desc (.boolV true) = .ok [] ∧
    encodeVal ASN1_FBOOLEAN_desc (.boolV false) = .ok [] := by
  refine ⟨?_, rfl, rfl, rfl, rfl, rfl, rfl, rfl⟩
  intro d hd
  have hgen : ∀ dflt : Option Bool,
      (∀ b rest, decodeVal (.boolD dflt) (mkTLV boolTag [b] ++ rest) =
        .ok (.boolV (decide (b ≠ 0)), rest)) ∧
      (∀ content rest, content.length ≠ 1 →
        decodeVal (.boolD dflt) (mkTLV boolTag content ++ rest) =
          .error .invalidEncoding) := by
    intro dflt
    cases dflt with
    | none =>
      exact ⟨fun b rest => boolTLV_decode_byte b rest,
        fun content rest h => boolTLV_decode_badlen content rest h⟩
    | some dv =>
      constructor
      · intro b rest
        rw [boolSome_tlv dv [b] rest]
        exact boolTLV_decode_byte b rest
      · intro content rest h
        rw [boolSome_tlv dv content rest]
        exact boolTLV_decode_badlen content rest h
  simp only [List.mem_cons, List.not_mem_nil, or_false] at hd
  rcases hd with rfl | rfl | rfl
  · exact hgen none
  · exact hgen (some true)
  · exact hgen (some false)

theorem C6_boolean_amended_witness :
    decodeVal ASN1_BOOLEAN_desc [1, 1, 255] = .ok (.boolV true, []) ∧
    decodeVal ASN1_BOOLEAN_desc [1, 1, 1] = .ok (.boolV true, []) ∧
    decodeVal ASN1_BOOLEAN_desc [1, 1, 0] = .ok (.boolV false, []) ∧
    decodeVal ASN1_BOOLEAN_desc [1, 2, 255, 255] = .error .invalidEncoding := by
  have hmem : ASN1_BOOLEAN_desc ∈
      [ASN1_BOOLEAN_desc, ASN1_TBOOLEAN_desc, ASN1_FBOOLEAN_desc] := by simp
  have hc := (C6_boolean_amended.1 _ hmem)
  refine ⟨?_, ?_, ?_, ?_⟩
  · simpa using hc.1 255 []
  · simpa using hc.1 1 []
  · simpa using hc.1 0 []
  · simpa using hc.2 [255, 255] [] (by simp)

/-- Claim C8: every type's free operation is a safe no-op on an
absent handle and on a freshly allocated (empty/unset) value: it is
total and releases no children. -/
theorem C8_free_noop :
    ASN1_item_free none = [] ∧
    (∀ d ∈ regDescs, ASN1_item_free (some (newValue d)) = []) ∧
    ASN1_STRING_free none = [] ∧
    (∀ ty, ASN1_STRING_free (some (ASN1_STRING_type_new ty)) = []) := by
  refine ⟨rfl, ?_, rfl, fun _ => rfl⟩
  intro d _
  rcases d with k | _ | dflt | alts | _ | ⟨s, e⟩
  · rfl
  · rfl
  · cases dflt <;> rfl
  · rfl
  · rfl
  · rfl

theorem C8_free_noop_witness :
    ASN1_item_free (some (newValue ASN1_SET_ANY_desc)) = [] := by
  have hmem : ASN1_SET_ANY_desc ∈ regDescs := by
    simp [regDescs, c1Descs]
  exact C8_free_noop.2.1 _ hmem

/-- Claim C9: every string-family kind's free function is
extensionally equal to the shared `ASN1_STRING_free` (in the source
each is a wrapper whose body is a call to `ASN1_STRING_free`,
`tasn_typ.cc` line 20). -/
theorem C9_free_shared :
    ASN1_OCTET_STRING_free = ASN1_STRING_free ∧
    ASN1_INTEGER_free = ASN1_STRING_free ∧
    ASN1_ENUMERATED_free = ASN1_STRING_free ∧
    ASN1_BIT_STRING_free = ASN1_STRING_free ∧
    ASN1_UTF8STRING_free = ASN1_STRING_free ∧
    ASN1_PRINTABLESTRING_free = ASN1_STRING_free ∧
    ASN1_T61STRING_free = ASN1_STRING_free ∧
    ASN1_IA5STRING_free = ASN1_STRING_free ∧
    ASN1_GENERALSTRING_free = ASN1_STRING_free ∧
    ASN1_UTCTIME_free = ASN1_STRING_free ∧
    ASN1_GENERALIZEDTIME_free = ASN1_STRING_free ∧
    ASN1_VISIBLESTRING_free = ASN1_STRING_free ∧
    ASN1_UNIVERSALSTRING_free = ASN1_STRING_free ∧
    ASN1_BMPSTRING_free = ASN1_STRING_free :=
  ⟨rfl, rfl, rfl, rfl, rfl, rfl, rfl, rfl, rfl, rfl, rfl, rfl, rfl, rfl⟩

/-- Claim C10: decoding with the swallowed-SEQUENCE type captures the
whole well-formed SEQUENCE TLV opaquely into a string value, and each
string-family `_new` returns an empty value whose discriminant is the
kind's `V_ASN1_*` constant (`tasn_typ.cc` lines 19 and 44-45). -/
theorem C10_capture_and_new :
    (∀ inner rest,
      decodeVal ASN1_SEQUENCE_desc (mkTLV (seqTag false) inner ++ rest) =
        .ok (.str V_ASN1_SEQUENCE (mkTLV (seqTag false) inner), rest)) ∧
    ASN1_OCTET_STRING_new = .str V_ASN1_OCTET_STRING [] ∧
    ASN1_INTEGER_new = .str V_ASN1_INTEGER [] ∧
    ASN1_ENUMERATED_new = .str V_ASN1_ENUMERATED [] ∧
    ASN1_BIT_STRING_new = .str V_ASN1_BIT_STRING [] ∧
    ASN1_UTF8STRING_new = .str V_ASN1_UTF8STRING [] ∧
    ASN1_PRINTABLESTRING_new = .str V_ASN1_PRINTABLESTRING [] ∧
    ASN1_T61STRING_new = .str V_ASN1_T61STRING [] ∧
    ASN1_IA5STRING_new = .str V_ASN1_IA5STRING [] ∧
    ASN1_GENERALSTRING_new = .str V_ASN1_GENERALSTRING [] ∧
    ASN1_UTCTIME_new = .str V_ASN1_UTCTIME [] ∧
    ASN1_GENERALIZEDTIME_new = .str V_ASN1_GENERALIZEDTIME [] ∧
    ASN1_VISIBLESTRING_new = .str V_ASN1_VISIBLESTRING [] ∧
    ASN1_UNIVERSALSTRING_new = .str V_ASN1_UNIVERSALSTRING [] ∧
    ASN1_BMPSTRING_new = .str V_ASN1_BMPSTRING [] := by
  refine ⟨?_, rfl, rfl, rfl, rfl, rfl, rfl, rfl, rfl, rfl, rfl, rfl, rfl, rfl, rfl⟩
  intro inner rest
  have hd := decodeHdr_mkTLV (seqTag false) inner rest (by simp [seqTag])
  have htag : (seqTag false) =
      (⟨0, isConsKind .sequenceCapture, tagOf .sequenceCapture⟩ : AsnTag) := rfl
  rw [htag] at hd
  simp only [ASN1_SEQUENCE_desc, decodeVal, htag, hd, contentToValue]
  simp

end ASN1Spec
